import Mathlib

/-!
Verification of the Q-Runtime quantum IR core: circuit DAG, job scheduler,
qubit registry and runtime coordinator, shallowly embedded from the Rust
sources in `src/QuantumRuntime/IR/src/`.

Embedding conventions:
* Rust `u64`/`u32`/`usize` counters and identifiers are modelled as `Nat`
  (they are only ever incremented or compared in the embedded code paths,
  so wrap-around is unreachable).
* `HashMap`/`HashSet` fields are modelled as functions into `Option`/`Bool`,
  except `JobScheduler.running`, which is modelled as an association list
  because the source calls `.len()` on it.
* `&mut self` methods become functions returning the result paired with the
  updated state.
* `Vec::pop` removes the last element; where the source uses a `Vec` as a
  LIFO work list (`topological_sort`), the embedding stores the list in
  reversed order so that pushes and pops act on the list head.
* The system clock (`current_timestamp`) is abstracted as the constant `0`;
  no embedded property reads a timestamp.
* Recursive graph walks (`has_path`, the Kahn loop) carry an explicit fuel
  argument; the entry points pass fuel that is proved sufficient for every
  well-formed graph.
-/

namespace QRuntime

/-! ## Qubit identifiers and state (`qubit.rs`) -/

/-- Logical qubit identifier (`qubit.rs`, newtype over `u64`). -/
structure LogicalQubitId where
  val : Nat
deriving DecidableEq

/-- Physical qubit identifier (`qubit.rs`, newtype over `u64`). -/
structure PhysicalQubitId where
  val : Nat
deriving DecidableEq

/-- Qubit lifecycle state (`qubit.rs::QubitState`). -/
inductive QubitState where
  | Allocated
  | Freed
  | Measured
  | Error
deriving DecidableEq

/-- A logical qubit record (`qubit.rs::LogicalQubit`). -/
structure LogicalQubit where
  id : LogicalQubitId
  state : QubitState
  physical_mapping : Option PhysicalQubitId
  is_ancilla : Bool
deriving DecidableEq

/-- `LogicalQubit::new`. -/
def LogicalQubit.new (id : LogicalQubitId) : LogicalQubit :=
  { id := id, state := .Allocated, physical_mapping := none, is_ancilla := false }

/-- `LogicalQubit::free`: mark freed and drop the physical mapping. -/
def LogicalQubit.free (q : LogicalQubit) : LogicalQubit :=
  { q with state := .Freed, physical_mapping := none }

/-! ## Logical qubit manager (`qubit.rs::LogicalQubitManager`)

The `allocated` hash map is modelled as a function into `Option`; the
`free_list` is a `Vec`, kept in source order (push appends, pop takes the
last element). -/

structure LogicalQubitManager where
  next_id : Nat
  allocated : LogicalQubitId → Option LogicalQubit
  free_list : List LogicalQubitId

/-- `LogicalQubitManager::new`. -/
def LogicalQubitManager.new : LogicalQubitManager :=
  { next_id := 0, allocated := fun _ => none, free_list := [] }

/-- `LogicalQubitManager::allocate`: reuse the most recently freed id when
the free list is non-empty, otherwise mint a fresh one. -/
def LogicalQubitManager.allocate (m : LogicalQubitManager) :
    LogicalQubitId × LogicalQubitManager :=
  match m.free_list.getLast? with
  | some id =>
      let allocated := fun k =>
        if k = id then
          match m.allocated id with
          | some q => some { q with state := .Allocated, physical_mapping := none }
          | none => none
        else m.allocated k
      (id, { m with allocated := allocated, free_list := m.free_list.dropLast })
  | none =>
      let id : LogicalQubitId := ⟨m.next_id⟩
      let allocated := fun k =>
        if k = id then some (LogicalQubit.new id) else m.allocated k
      (id, { m with next_id := m.next_id + 1, allocated := allocated })

/-- `LogicalQubitManager::free`: on a known id, mark the record freed and
push the id onto the free list (the source pushes unconditionally). -/
def LogicalQubitManager.free (m : LogicalQubitManager) (id : LogicalQubitId) :
    Bool × LogicalQubitManager :=
  match m.allocated id with
  | some q =>
      let allocated := fun k => if k = id then some q.free else m.allocated k
      (true, { m with allocated := allocated, free_list := m.free_list ++ [id] })
  | none => (false, m)

/-! ## Qubit mapping (`qubit.rs::QubitMapping`)

Both hash maps are modelled as functions into `Option`. -/

structure QubitMapping where
  logical_to_physical : LogicalQubitId → Option PhysicalQubitId
  physical_to_logical : PhysicalQubitId → Option LogicalQubitId

/-- `QubitMapping::new`. -/
def QubitMapping.new : QubitMapping :=
  { logical_to_physical := fun _ => none, physical_to_logical := fun _ => none }

/-- `QubitMapping::map`: insert the forward entry, remove the reverse entry
of the previous image (if any), then insert the new reverse entry. -/
def QubitMapping.map (m : QubitMapping) (logical : LogicalQubitId)
    (physical : PhysicalQubitId) : Option PhysicalQubitId × QubitMapping :=
  let old := m.logical_to_physical logical
  let l2p := fun k =>
    if k = logical then some physical else m.logical_to_physical k
  let p2l :=
    match old with
    | some old_physical => fun k =>
        if k = old_physical then none else m.physical_to_logical k
    | none => m.physical_to_logical
  let p2l := fun k => if k = physical then some logical else p2l k
  (old, { logical_to_physical := l2p, physical_to_logical := p2l })

/-- `QubitMapping::unmap`: remove both directions of the entry for
`logical`, if present. -/
def QubitMapping.unmap (m : QubitMapping) (logical : LogicalQubitId) :
    Option PhysicalQubitId × QubitMapping :=
  match m.logical_to_physical logical with
  | some physical =>
      (some physical,
        { logical_to_physical := fun k =>
            if k = logical then none else m.logical_to_physical k,
          physical_to_logical := fun k =>
            if k = physical then none else m.physical_to_logical k })
  | none => (none, m)

/-- `QubitMapping::clear`. -/
def QubitMapping.clear (_ : QubitMapping) : QubitMapping :=
  QubitMapping.new

/-- The two lookup tables agree: `(L, P)` is a forward entry exactly when
`(P, L)` is a reverse entry. -/
def QubitMapping.Consistent (m : QubitMapping) : Prop :=
  ∀ l p, m.logical_to_physical l = some p ↔ m.physical_to_logical p = some l

/-- A `QubitMapping` call trace (the operations named by the claim). -/
inductive MapOp where
  | map (logical : LogicalQubitId) (physical : PhysicalQubitId)
  | unmap (logical : LogicalQubitId)
  | clear

/-- Run a trace of `QubitMapping` operations, dropping returned values. -/
def runMapping (m : QubitMapping) : List MapOp → QubitMapping
  | [] => m
  | .map l p :: rest => runMapping (QubitMapping.map m l p).2 rest
  | .unmap l :: rest => runMapping (QubitMapping.unmap m l).2 rest
  | .clear :: rest => runMapping (m.clear) rest

/-- A trace is collision-free when every `map (L, P)` call happens while `P`
is unmapped or already mapped to `L` itself. -/
def CollisionFree (m : QubitMapping) : List MapOp → Prop
  | [] => True
  | .map l p :: rest =>
      (m.physical_to_logical p = none ∨ m.physical_to_logical p = some l) ∧
        CollisionFree (QubitMapping.map m l p).2 rest
  | .unmap l :: rest => CollisionFree (QubitMapping.unmap m l).2 rest
  | .clear :: rest => CollisionFree m.clear rest

/-! ### Pointwise descriptions of `QubitMapping.map` -/

theorem QubitMapping.map_l2p (m : QubitMapping) (l : LogicalQubitId)
    (p : PhysicalQubitId) (k : LogicalQubitId) :
    ((m.map l p).2).logical_to_physical k =
      if k = l then some p else m.logical_to_physical k := by
  cases h : m.logical_to_physical l <;> simp [QubitMapping.map, h]

theorem QubitMapping.map_p2l_none (m : QubitMapping) {l : LogicalQubitId}
    (p : PhysicalQubitId) (h : m.logical_to_physical l = none)
    (k : PhysicalQubitId) :
    ((m.map l p).2).physical_to_logical k =
      if k = p then some l else m.physical_to_logical k := by
  simp [QubitMapping.map, h]

theorem QubitMapping.map_p2l_some (m : QubitMapping) {l : LogicalQubitId}
    (p : PhysicalQubitId) {oldP : PhysicalQubitId}
    (h : m.logical_to_physical l = some oldP) (k : PhysicalQubitId) :
    ((m.map l p).2).physical_to_logical k =
      if k = p then some l
      else if k = oldP then none else m.physical_to_logical k := by
  simp [QubitMapping.map, h]

theorem QubitMapping.map_consistent (m : QubitMapping) (l : LogicalQubitId)
    (p : PhysicalQubitId)
    (pre : m.physical_to_logical p = none ∨ m.physical_to_logical p = some l)
    (inv : m.Consistent) : ((m.map l p).2).Consistent := by
  intro l' p'
  rw [QubitMapping.map_l2p]
  cases hold : m.logical_to_physical l with
  | none =>
      rw [QubitMapping.map_p2l_none m p hold]
      by_cases hl : l' = l
      · by_cases hp : p' = p
        · rw [if_pos hl, if_pos hp, hl, hp]; simp
        · rw [if_pos hl, if_neg hp]
          constructor
          · intro h; exact absurd (Option.some.inj h).symm hp
          · intro h
            have h2 := (inv l' p').mpr h
            rw [hl, hold] at h2
            exact absurd h2 (by simp)
      · by_cases hp : p' = p
        · rw [if_neg hl, if_pos hp]
          constructor
          · intro h
            rw [hp] at h
            have h2 := (inv l' p).mp h
            rcases pre with hnone | hsome
            · rw [h2] at hnone; exact absurd hnone (by simp)
            · rw [h2] at hsome
              exact absurd (Option.some.inj hsome) hl
          · intro h; exact absurd (Option.some.inj h).symm hl
        · rw [if_neg hl, if_neg hp]; exact inv l' p'
  | some oldP =>
      rw [QubitMapping.map_p2l_some m p hold]
      have hrev : m.physical_to_logical oldP = some l := (inv l oldP).mp hold
      by_cases hl : l' = l
      · by_cases hp : p' = p
        · rw [if_pos hl, if_pos hp, hl, hp]; simp
        · rw [if_pos hl, if_neg hp]
          constructor
          · intro h; exact absurd (Option.some.inj h).symm hp
          · by_cases ho : p' = oldP
            · rw [if_pos ho]; intro h; exact absurd h (by simp)
            · rw [if_neg ho]
              intro h
              have h2 := (inv l' p').mpr h
              rw [hl, hold] at h2
              exact absurd (Option.some.inj h2).symm ho
      · by_cases hp : p' = p
        · rw [if_neg hl, if_pos hp]
          constructor
          · intro h
            rw [hp] at h
            have h2 := (inv l' p).mp h
            rcases pre with hnone | hsome
            · rw [h2] at hnone; exact absurd hnone (by simp)
            · rw [h2] at hsome
              exact absurd (Option.some.inj hsome) hl
          · intro h; exact absurd (Option.some.inj h).symm hl
        · by_cases ho : p' = oldP
          · rw [if_neg hl, if_neg hp, if_pos ho]
            constructor
            · intro h
              rw [ho] at h
              have h2 := (inv l' oldP).mp h
              rw [hrev] at h2
              exact absurd (Option.some.inj h2).symm hl
            · intro h; exact absurd h (by simp)
          · rw [if_neg hl, if_neg hp, if_neg ho]; exact inv l' p'

theorem QubitMapping.unmap_consistent (m : QubitMapping) (l : LogicalQubitId)
    (inv : m.Consistent) : ((m.unmap l).2).Consistent := by
  cases hold : m.logical_to_physical l with
  | none => simpa [QubitMapping.unmap, hold] using inv
  | some p0 =>
      have hrev : m.physical_to_logical p0 = some l := (inv l p0).mp hold
      intro l' p'
      simp only [QubitMapping.unmap, hold]
      by_cases hl : l' = l
      · rw [if_pos hl]
        constructor
        · intro h; exact absurd h (by simp)
        · by_cases hp : p' = p0
          · rw [if_pos hp]; intro h; exact absurd h (by simp)
          · rw [if_neg hp]
            intro h
            have h2 := (inv l' p').mpr h
            rw [hl, hold] at h2
            exact absurd (Option.some.inj h2).symm hp
      · rw [if_neg hl]
        by_cases hp : p' = p0
        · rw [if_pos hp]
          constructor
          · intro h
            rw [hp] at h
            have h2 := (inv l' p0).mp h
            rw [hrev] at h2
            exact absurd (Option.some.inj h2).symm hl
          · intro h; exact absurd h (by simp)
        · rw [if_neg hp]; exact inv l' p'

theorem QubitMapping.new_consistent : QubitMapping.new.Consistent := by
  intro l p
  simp [QubitMapping.new]

/-- C7, amended invariant: along any collision-free trace of `map`, `unmap`
and `clear` calls, the two lookup tables stay mutually consistent (each
forward entry `(L, P)` has exactly the reverse entry `(P, L)`, and
re-mapping `L` evicts the stale reverse entry in the same step). -/
theorem qubitMapping_bijection_of_collisionFree (ops : List MapOp) :
    ∀ m : QubitMapping, m.Consistent → CollisionFree m ops →
      (runMapping m ops).Consistent := by
  induction ops with
  | nil => intro m inv _; exact inv
  | cons op rest ih =>
      intro m inv good
      cases op with
      | map l p =>
          exact ih _ (QubitMapping.map_consistent m l p good.1 inv) good.2
      | unmap l =>
          exact ih _ (QubitMapping.unmap_consistent m l inv) good
      | clear =>
          exact ih _ QubitMapping.new_consistent good

/-- Witness for C7's amended claim: a concrete collision-free trace that
re-maps logical 0 from physical 5 to physical 6; the invariant holds. -/
theorem qubitMapping_bijection_of_collisionFree_witness :
    (runMapping QubitMapping.new
      [.map ⟨0⟩ ⟨5⟩, .map ⟨0⟩ ⟨6⟩]).Consistent :=
  qubitMapping_bijection_of_collisionFree _ QubitMapping.new
    QubitMapping.new_consistent
    ⟨Or.inl (by decide), Or.inl (by decide), trivial⟩

/-- C7, counterexample: mapping logical 0 to physical 5 and then logical 1
to the same physical 5 leaves the stale forward entry `(0, 5)` whose
reverse entry now reads `(5, 1)`: the tables are no longer a bijection. -/
theorem qubitMapping_bijection_counterexample :
    ((QubitMapping.map (QubitMapping.new.map ⟨0⟩ ⟨5⟩).2 ⟨1⟩ ⟨5⟩).2).logical_to_physical ⟨0⟩
        = some ⟨5⟩ ∧
    ((QubitMapping.map (QubitMapping.new.map ⟨0⟩ ⟨5⟩).2 ⟨1⟩ ⟨5⟩).2).physical_to_logical ⟨5⟩
        = some ⟨1⟩ ∧
    ¬ ((QubitMapping.map (QubitMapping.new.map ⟨0⟩ ⟨5⟩).2 ⟨1⟩ ⟨5⟩).2).Consistent := by
  refine ⟨by decide, by decide, fun h => ?_⟩
  have := (h ⟨0⟩ ⟨5⟩).mp (by decide)
  exact absurd this (by decide)

/-- C8: evaluating the qubit registry at the failing input. Freeing an
unknown id returns `false` (as claimed), and double-freeing a known id
returns `true`, but the free list then holds the id twice: the source
pushes onto `free_list` unconditionally, with no duplicate guard. -/
theorem logicalQubitManager_double_free_divergence :
    (LogicalQubitManager.new.allocate).1 = ⟨0⟩ ∧
    (((LogicalQubitManager.new.allocate).2).free ⟨7⟩).1 = false ∧
    (((LogicalQubitManager.new.allocate).2).free ⟨0⟩).1 = true ∧
    (((((LogicalQubitManager.new.allocate).2).free ⟨0⟩).2).free ⟨0⟩).1 = true ∧
    (((((LogicalQubitManager.new.allocate).2).free ⟨0⟩).2).free ⟨0⟩).2.free_list
        = [⟨0⟩, ⟨0⟩] ∧
    ((((((LogicalQubitManager.new.allocate).2).free ⟨0⟩).2).free ⟨0⟩).2.free_list.count ⟨0⟩)
        = 2 := by
  refine ⟨by decide, by decide, by decide, by decide, by decide, by decide⟩

/-! ## Error taxonomy (`lib.rs::IrError`) -/

inductive IrError where
  | QubitNotFound (msg : String)
  | QubitAlreadyAllocated (msg : String)
  | InvalidOperation (msg : String)
  | UnsupportedOperation (msg : String)
  | BackendUnavailable (msg : String)
  | JobExecutionFailed (msg : String)
  | CyclicDependency (msg : String)
  | SchedulingConflict (msg : String)
  | Timeout (msg : String)
deriving DecidableEq

/-! ## Operations (`operation.rs`)

Gate parameters are `f64` in the source and are carried opaquely here as
`Float`; no embedded code path computes with them. -/

inductive SingleQubitGate where
  | X | Y | Z | H | S | T | Sdg | Tdg
  | Rx (theta : Float)
  | Ry (theta : Float)
  | Rz (theta : Float)
  | P (phi : Float)
  | U (theta phi lam : Float)

inductive TwoQubitGate where
  | CNOT | CZ | SWAP
  | CP (phi : Float)
  | ISWAP | SqrtSWAP
  | MS (theta : Float)

inductive ThreeQubitGate where
  | Toffoli | Fredkin | CCZ

/-- `operation.rs::CustomOp`; the string metadata map is a function. -/
structure CustomOp where
  name : String
  qubits : List LogicalQubitId
  params : List Float
  metadata : String → Option String

/-- `operation.rs::Operation`. The `[LogicalQubitId; 2]` control array of
`Gate3` is a pair. -/
inductive Operation where
  | Gate1 (gate : SingleQubitGate) (target : LogicalQubitId)
  | Gate2 (gate : TwoQubitGate) (control target : LogicalQubitId)
  | Gate3 (gate : ThreeQubitGate) (controls : LogicalQubitId × LogicalQubitId)
      (target : LogicalQubitId)
  | Measure (qubit : LogicalQubitId) (classical_reg : Option Nat)
  | Reset (qubit : LogicalQubitId)
  | Barrier (qubits : List LogicalQubitId)
  | Custom (op : CustomOp)

/-- `Operation::qubits`: the ordered qubit footprint. -/
def Operation.qubits : Operation → List LogicalQubitId
  | .Gate1 _ target => [target]
  | .Gate2 _ control target => [control, target]
  | .Gate3 _ controls target => [controls.1, controls.2, target]
  | .Measure qubit _ => [qubit]
  | .Reset qubit => [qubit]
  | .Barrier qs => qs
  | .Custom op => op.qubits

/-- `Operation::is_measurement`. -/
def Operation.is_measurement : Operation → Bool
  | .Measure _ _ => true
  | _ => false

/-! ## Circuit DAG (`circuit.rs`) -/

/-- `circuit.rs::OperationNode`. -/
structure OperationNode where
  id : Nat
  op : Operation
  depends_on : List Nat
  parallel_with : List Nat
  qubits : List LogicalQubitId

/-- `OperationNode::new`. -/
def OperationNode.new (id : Nat) (op : Operation) : OperationNode :=
  { id := id, op := op, depends_on := [], parallel_with := [],
    qubits := op.qubits }

/-- `OperationNode::with_dependencies`. -/
def OperationNode.with_dependencies (n : OperationNode) (node_ids : List Nat) :
    OperationNode :=
  { n with depends_on := node_ids }

/-- `circuit.rs::CircuitMetadata`. -/
structure CircuitMetadata where
  name : Option String
  description : Option String
  tags : List String
  created_at : Option Nat

def CircuitMetadata.mkDefault : CircuitMetadata :=
  { name := none, description := none, tags := [], created_at := none }

/-- `circuit.rs::CircuitDag`. -/
structure CircuitDag where
  nodes : List OperationNode
  edges : List (Nat × Nat)
  inputs : List LogicalQubitId
  outputs : List LogicalQubitId
  metadata : CircuitMetadata
  cached_depth : Option Nat

/-- `CircuitDag::new`. -/
def CircuitDag.new : CircuitDag :=
  { nodes := [], edges := [], inputs := [], outputs := [],
    metadata := CircuitMetadata.mkDefault, cached_depth := none }

/-- `CircuitDag::with_name`. -/
def CircuitDag.with_name (name : String) : CircuitDag :=
  { CircuitDag.new with
      metadata := { CircuitMetadata.mkDefault with name := some name } }

/-- Replace the element at index `i` when it exists (Rust
`if let Some(x) = v.get_mut(i)` / in-range indexing). -/
def modifyAt {α : Type} (l : List α) (i : Nat) (f : α → α) : List α :=
  match l.get? i with
  | some a => l.set i (f a)
  | none => l

/-- `CircuitDag::add_node`: append a node with id = current length and
clear the cached depth. -/
def CircuitDag.add_node (dag : CircuitDag) (op : Operation) :
    Nat × CircuitDag :=
  let id := dag.nodes.length
  (id,
    { dag with
        nodes := dag.nodes ++ [OperationNode.new id op],
        cached_depth := none })

/-- `CircuitDag::add_node_with_deps`: validate all dependencies, then add
the node and one edge per dependency. -/
def CircuitDag.add_node_with_deps (dag : CircuitDag) (op : Operation)
    (deps : List Nat) : Except IrError Nat × CircuitDag :=
  match deps.find? (fun d => dag.nodes.length ≤ d) with
  | some d =>
      (.error (.QubitNotFound
        ("Dependency node " ++ toString d ++ " does not exist")), dag)
  | none =>
      let id := dag.nodes.length
      let node := (OperationNode.new id op).with_dependencies deps
      (.ok id,
        { dag with
            nodes := dag.nodes ++ [node],
            edges := dag.edges ++ deps.map (fun d => (d, id)),
            cached_depth := none })

/-- `CircuitDag::has_path` (depth-first search over outgoing edges with a
visited vector, threaded through the loop). The source recurses without
bound; here an explicit fuel argument drives the recursion, and the entry
point `would_create_cycle` passes fuel that lemma `hasPath_fuel` shows
never runs out on well-formed graphs. The fold mirrors the source's early
`return true`: once the flag is set the remaining edges are skipped. -/
def hasPath (edges : List (Nat × Nat)) (endv : Nat) :
    Nat → Nat → List Bool → Bool × List Bool
  | 0, _, visited => (false, visited)
  | fuel + 1, start, visited =>
    if start = endv then (true, visited)
    else if visited.getD start false then (false, visited)
    else
      edges.foldl
        (fun acc e =>
          if acc.1 then acc
          else if e.1 = start then hasPath edges endv fuel e.2 acc.2
          else acc)
        (false, visited.set start true)

/-- `CircuitDag::would_create_cycle`: a path from `to` back to `from`
(found with a fresh all-false visited vector) means the new edge closes a
cycle. -/
def CircuitDag.would_create_cycle (dag : CircuitDag) (f t : Nat) : Bool :=
  (hasPath dag.edges f (dag.nodes.length + 1) t
    (List.replicate dag.nodes.length false)).1

/-- `CircuitDag::add_edge`: bounds check, cycle check, then append the edge
to `edges` and `from` to `nodes[to].depends_on`, clearing the cache. -/
def CircuitDag.add_edge (dag : CircuitDag) (f t : Nat) :
    Except IrError Unit × CircuitDag :=
  if dag.nodes.length ≤ f ∨ dag.nodes.length ≤ t then
    (.error (.QubitNotFound
      ("Node index out of bounds: from=" ++ toString f ++ ", to=" ++ toString t)),
      dag)
  else if dag.would_create_cycle f t then
    (.error (.CyclicDependency
      ("Adding edge " ++ toString f ++ " -> " ++ toString t ++
        " would create a cycle")), dag)
  else
    (.ok (),
      { dag with
          edges := dag.edges ++ [(f, t)],
          nodes := modifyAt dag.nodes t
            (fun n => { n with depends_on := n.depends_on ++ [f] }),
          cached_depth := none })

/-- `CircuitDag::get_node`. -/
def CircuitDag.get_node (dag : CircuitDag) (id : Nat) : Option OperationNode :=
  dag.nodes.get? id

/-- `CircuitDag::num_nodes`. -/
def CircuitDag.num_nodes (dag : CircuitDag) : Nat :=
  dag.nodes.length

/-- `CircuitDag::clear`. -/
def CircuitDag.clear (dag : CircuitDag) : CircuitDag :=
  { dag with nodes := [], edges := [], cached_depth := none }

/-- In-degree vector of `topological_sort` (`for (from, to) in edges:
in_degree[to] += 1`). -/
def initInDegree (edges : List (Nat × Nat)) (n : Nat) : List Nat :=
  edges.foldl (fun deg e => deg.set e.2 (deg.getD e.2 0 + 1))
    (List.replicate n 0)

/-- The inner edge scan of the Kahn loop: for each edge leaving `node`,
decrement the in-degree of its target and enqueue the target when the
in-degree reaches zero. State is (in-degree vector, work list). -/
def topoProcess (edges : List (Nat × Nat)) (node : Nat)
    (st : List Nat × List Nat) : List Nat × List Nat :=
  edges.foldl
    (fun s e =>
      if e.1 = node then
        let d := s.1.getD e.2 0 - 1
        let deg := s.1.set e.2 d
        if d = 0 then (deg, e.2 :: s.2) else (deg, s.2)
      else s)
    st

/-- The Kahn work loop of `CircuitDag::topological_sort`. The source keeps
the work list in a `Vec` pushed and popped at its end; the embedding stores
that `Vec` reversed, so the head is the next pop and enqueues cons onto the
head. Fuel bounds the number of iterations; `topological_sort` passes
`2 * n + 1`, which lemma `topoLoop_final` shows is never exhausted. -/
def topoLoop (edges : List (Nat × Nat)) :
    Nat → List Nat → List Bool → List Nat → List Nat → List Nat
  | 0, _, _, _, result => result
  | _ + 1, [], _, _, result => result
  | fuel + 1, node :: rest, visited, deg, result =>
    if visited.getD node false then topoLoop edges fuel rest visited deg result
    else
      let st := topoProcess edges node (deg, rest)
      topoLoop edges fuel st.2 (visited.set node true) st.1 (result ++ [node])

/-- `CircuitDag::topological_sort` (Kahn's algorithm; the initial work list
collects the zero-in-degree indices in ascending order, reversed here
because the embedding keeps the `Vec` reversed). -/
def CircuitDag.topological_sort (dag : CircuitDag) : List Nat :=
  let n := dag.nodes.length
  let deg := initInDegree dag.edges n
  let q := ((List.range n).filter (fun i => deg.getD i 0 == 0)).reverse
  topoLoop dag.edges (2 * n + 1) q (List.replicate n false) deg []

/-- `CircuitDag::depth`: serve the cache if present; otherwise longest-path
dynamic programming over the topological order, memoised into
`cached_depth`. (`iter().max().unwrap_or(0)` over a `Vec<usize>` equals
`foldl max 0`.) -/
def CircuitDag.depth (dag : CircuitDag) : Nat × CircuitDag :=
  match dag.cached_depth with
  | some d => (d, dag)
  | none =>
    if dag.nodes.length = 0 then (0, { dag with cached_depth := some 0 })
    else
      let order := dag.topological_sort
      let depths := order.foldl
        (fun depths node_id =>
          let deps := ((dag.nodes.get? node_id).map OperationNode.depends_on).getD []
          let max_pred := (deps.map (fun p => depths.getD p 0)).foldl max 0
          depths.set node_id (max_pred + 1))
        (List.replicate dag.nodes.length 0)
      let max_depth := depths.foldl max 0
      (max_depth, { dag with cached_depth := some max_depth })

/-- The `parallel_with` back-fill of `compute_parallel_groups`: every node
in a group lists the other members of its group. -/
def updateParallelWith (nodes : List OperationNode)
    (groups : List (List Nat)) : List OperationNode :=
  groups.foldl
    (fun nodes group =>
      group.foldl
        (fun nodes node_id =>
          modifyAt nodes node_id
            (fun node =>
              { node with
                  parallel_with := group.filter (fun id => id != node_id) }))
        nodes)
    nodes

/-- `CircuitDag::compute_parallel_groups`. Note: the source computes
`level = max(node_level[pred])` over predecessors — without adding 1 — and
finally sets `cached_depth := groups.len()`; the embedding reproduces this
faithfully. The source's `while groups.len() <= level` push loop is the
`replicate` padding. -/
def CircuitDag.compute_parallel_groups (dag : CircuitDag) :
    List (List Nat) × CircuitDag :=
  let order := dag.topological_sort
  let st := order.foldl
    (fun (s : List (List Nat) × List Nat) node_id =>
      let deps := ((dag.nodes.get? node_id).map OperationNode.depends_on).getD []
      let level := (deps.map (fun p => s.2.getD p 0)).foldl max 0
      let node_level := s.2.set node_id level
      let groups := s.1 ++ List.replicate (level + 1 - s.1.length) []
      let groups := groups.set level (groups.getD level [] ++ [node_id])
      (groups, node_level))
    ([], List.replicate dag.nodes.length 0)
  let groups := st.1
  (groups,
    { dag with
        nodes := updateParallelWith dag.nodes groups,
        cached_depth := some groups.length })

/-- `CircuitDag::can_parallel`: in-range, no direct dependency either way,
and disjoint qubit footprints. -/
def CircuitDag.can_parallel (dag : CircuitDag) (node1 node2 : Nat) : Bool :=
  match dag.nodes.get? node1, dag.nodes.get? node2 with
  | some n1, some n2 =>
      if n1.depends_on.contains node2 || n2.depends_on.contains node1 then
        false
      else n1.qubits.all (fun q => !(n2.qubits.contains q))
  | _, _ => false

/-- `CircuitDag::all_qubits` (the source collects into a `HashSet`; the
embedding deduplicates — the callers use the result only as a set). -/
def CircuitDag.all_qubits (dag : CircuitDag) : List LogicalQubitId :=
  (dag.nodes.foldl (fun acc node => acc ++ node.qubits) []).dedup

/-! ### Graph-theoretic vocabulary for the DAG claims -/

/-- One directed edge of the pair list. -/
def EdgeStep (edges : List (Nat × Nat)) (a b : Nat) : Prop :=
  (a, b) ∈ edges

/-- Directed reachability (reflexive-transitive closure of the edges). -/
def Reaches (edges : List (Nat × Nat)) (a b : Nat) : Prop :=
  Relation.ReflTransGen (EdgeStep edges) a b

/-- Every edge endpoint indexes into `nodes` (the structural invariant of
every reachable `CircuitDag`). -/
def CircuitDag.WellFormed (dag : CircuitDag) : Prop :=
  ∀ e ∈ dag.edges, e.1 < dag.nodes.length ∧ e.2 < dag.nodes.length

/-- No directed cycle. -/
def Acyclic (edges : List (Nat × Nat)) : Prop :=
  ∀ v, ¬ Relation.TransGen (EdgeStep edges) v v

/-- The two-node chain `H(q0) ⟶ X(q0)`, built through the public API:
`add_node`, `add_node`, `add_edge 0 1`. -/
def chainDag : CircuitDag :=
  ((((CircuitDag.new.add_node (.Gate1 .H ⟨0⟩)).2).add_node
      (.Gate1 .X ⟨0⟩)).2.add_edge 0 1).2

/-! ### Helpers about flag vectors -/

/-- Number of unset flags (unvisited nodes). -/
def countFalse : List Bool → Nat
  | [] => 0
  | b :: l => (if b then 0 else 1) + countFalse l

/-- `w` extends `v`: same length and every set flag stays set. -/
def Subsumes (v w : List Bool) : Prop :=
  w.length = v.length ∧ ∀ i, v.getD i false = true → w.getD i false = true

theorem Subsumes.refl {v : List Bool} : Subsumes v v :=
  ⟨rfl, fun _ h => h⟩

theorem Subsumes.trans {u v w : List Bool} (h1 : Subsumes u v)
    (h2 : Subsumes v w) : Subsumes u w :=
  ⟨h2.1.trans h1.1, fun i h => h2.2 i (h1.2 i h)⟩

theorem getD_set_self {l : List Bool} {i : Nat} (b : Bool) (h : i < l.length) :
    (l.set i b).getD i false = b := by
  rw [List.getD_eq_getElem?_getD, List.getElem?_set]
  simp [h]

theorem getD_set_other {l : List Bool} (i : Nat) {j : Nat} (b : Bool)
    (h : i ≠ j) : (l.set i b).getD j false = l.getD j false := by
  rw [List.getD_eq_getElem?_getD, List.getElem?_set, if_neg h,
    ← List.getD_eq_getElem?_getD]

theorem subsumes_set_true (v : List Bool) (i : Nat) :
    Subsumes v (v.set i true) := by
  refine ⟨List.length_set v i true, fun j hj => ?_⟩
  by_cases h : i = j
  · by_cases hlen : i < v.length
    · rw [← h, getD_set_self true hlen]
    · rw [List.set_eq_of_length_le (Nat.le_of_not_lt hlen)]; exact hj
  · rw [getD_set_other i true h]; exact hj

theorem countFalse_set_true (l : List Bool) : ∀ i : Nat, i < l.length →
    l.getD i false = false → countFalse (l.set i true) + 1 = countFalse l := by
  induction l with
  | nil => intro i h; simp at h
  | cons a as ih =>
      intro i hlen hfalse
      cases i with
      | zero =>
          simp only [List.getD_cons_zero] at hfalse
          simp [countFalse, hfalse]; omega
      | succ n =>
          have h1 := ih n (by simpa using Nat.lt_of_succ_lt_succ hlen)
            (by simpa [List.getD_cons_succ] using hfalse)
          simp only [List.set_cons_succ, countFalse]
          omega

theorem countFalse_le_of_subsumes : ∀ v w : List Bool, Subsumes v w →
    countFalse w ≤ countFalse v := by
  intro v
  induction v with
  | nil =>
      intro w h
      have : w = [] := List.eq_nil_of_length_eq_zero (by simpa using h.1)
      simp [this]
  | cons a as ih =>
      intro w h
      cases w with
      | nil => simpa using h.1
      | cons b bs =>
          have hl : bs.length = as.length := by simpa using h.1
          have htail : Subsumes as bs := by
            refine ⟨hl, fun i hi => ?_⟩
            have h2 := h.2 (i + 1)
            simp only [List.getD_cons_succ] at h2
            exact h2 hi
          have hhead : a = true → b = true := by
            have h2 := h.2 0
            simpa [List.getD_cons_zero] using h2
          have hle := ih bs htail
          cases a with
          | false => cases b <;> simp [countFalse] <;> omega
          | true =>
              have hb := hhead rfl
              simp [countFalse, hb]; omega

theorem countFalse_replicate (n : Nat) :
    countFalse (List.replicate n false) = n := by
  induction n with
  | zero => rfl
  | succ n ih => simp [List.replicate, countFalse, ih]; omega

theorem getD_replicate_false (n i : Nat) :
    (List.replicate n false).getD i false = false := by
  induction n generalizing i with
  | zero => simp [List.getD]
  | succ n ih =>
      cases i with
      | zero => simp [List.replicate]
      | succ j => simpa [List.replicate, List.getD_cons_succ] using ih j

/-! ### Correctness of the `has_path` depth-first search -/

/-- The body of the edge loop of `has_path` (named so the lemmas below can
speak about the fold). -/
def hpStep (edges0 : List (Nat × Nat)) (endv fuel start : Nat)
    (acc : Bool × List Bool) (e : Nat × Nat) : Bool × List Bool :=
  if acc.1 then acc
  else if e.1 = start then hasPath edges0 endv fuel e.2 acc.2
  else acc

theorem hasPath_succ_eq (edges : List (Nat × Nat)) (endv fuel start : Nat)
    (v : List Bool) (h1 : start ≠ endv) (h2 : v.getD start false = false) :
    hasPath edges endv (fuel + 1) start v =
      edges.foldl (hpStep edges endv fuel start) (false, v.set start true) := by
  rw [hasPath]
  simp only [if_neg h1, h2]
  rfl

/-- One node is closed in `w`: it is not the target and each of its
successors is flagged in `w` and is not the target. -/
def ClosedAt (edges : List (Nat × Nat)) (endv : Nat) (w : List Bool)
    (u : Nat) : Prop :=
  u ≠ endv ∧ ∀ e ∈ edges, e.1 = u → e.2 ≠ endv ∧ w.getD e.2 false = true

theorem ClosedAt.mono {edges : List (Nat × Nat)} {endv : Nat}
    {w w' : List Bool} {u : Nat} (hs : Subsumes w w')
    (h : ClosedAt edges endv w u) : ClosedAt edges endv w' u :=
  ⟨h.1, fun e he h1 => ⟨(h.2 e he h1).1, hs.2 e.2 (h.2 e he h1).2⟩⟩

theorem hasPath_fold_of_true (edges0 : List (Nat × Nat))
    (endv fuel start : Nat) :
    ∀ (es : List (Nat × Nat)) (v : List Bool),
      es.foldl (hpStep edges0 endv fuel start) (true, v) = (true, v) := by
  intro es
  induction es with
  | nil => intro v; rfl
  | cons e es ih =>
      intro v
      rw [List.foldl_cons]
      exact ih v

theorem hasPath_subsumes (edges : List (Nat × Nat)) (endv : Nat) :
    ∀ (fuel start : Nat) (v : List Bool),
      Subsumes v (hasPath edges endv fuel start v).2 := by
  intro fuel
  induction fuel with
  | zero => intro start v; exact Subsumes.refl
  | succ fuel ih =>
      have fold_sub : ∀ (start : Nat) (es : List (Nat × Nat))
          (acc : Bool × List Bool),
          Subsumes acc.2 ((es.foldl (hpStep edges endv fuel start) acc)).2 := by
        intro start es
        induction es with
        | nil => intro acc; exact Subsumes.refl
        | cons e es ihe =>
            intro acc
            rw [List.foldl_cons]
            have h1 : Subsumes acc.2 ((hpStep edges endv fuel start acc e)).2 := by
              by_cases hb : acc.1
              · simp only [hpStep, if_pos hb]; exact Subsumes.refl
              · by_cases he : e.1 = start
                · simp only [hpStep, if_neg hb, if_pos he]
                  exact ih e.2 acc.2
                · simp only [hpStep, if_neg hb, if_neg he]; exact Subsumes.refl
            exact Subsumes.trans h1 (ihe _)
      intro start v
      by_cases h1 : start = endv
      · rw [hasPath]; simp only [if_pos h1]; exact Subsumes.refl
      · by_cases h2 : v.getD start false = true
        · rw [hasPath]; simp only [if_neg h1, h2]; exact Subsumes.refl
        · rw [hasPath_succ_eq edges endv fuel start v h1
            (by simpa using h2)]
          exact Subsumes.trans (subsumes_set_true v start) (fold_sub start edges _)

theorem hasPath_true_reaches (edges : List (Nat × Nat)) (endv : Nat) :
    ∀ (fuel start : Nat) (v : List Bool),
      (hasPath edges endv fuel start v).1 = true → Reaches edges start endv := by
  intro fuel
  induction fuel with
  | zero => intro start v h; simp [hasPath] at h
  | succ fuel ih =>
      have fold_true : ∀ (start : Nat) (es : List (Nat × Nat))
          (acc : Bool × List Bool),
          (es.foldl (hpStep edges endv fuel start) acc).1 = true →
          acc.1 = true ∨ ∃ e ∈ es, e.1 = start ∧
            ∃ u : List Bool, (hasPath edges endv fuel e.2 u).1 = true := by
        intro start es
        induction es with
        | nil => intro acc h; exact Or.inl h
        | cons e es ihe =>
            intro acc h
            rw [List.foldl_cons] at h
            rcases ihe _ h with h1 | ⟨e', he', hs, u, hu⟩
            · by_cases hb : acc.1
              · exact Or.inl hb
              · by_cases he : e.1 = start
                · simp only [hpStep, if_neg hb, if_pos he] at h1
                  exact Or.inr ⟨e, List.mem_cons_self e es, he, acc.2, h1⟩
                · simp only [hpStep, if_neg hb, if_neg he] at h1
                  exact Or.inl h1
            · exact Or.inr ⟨e', List.mem_cons_of_mem e he', hs, u, hu⟩
      intro start v h
      by_cases h1 : start = endv
      · rw [h1]; exact Relation.ReflTransGen.refl
      · by_cases h2 : v.getD start false = true
        · rw [hasPath, if_neg h1, if_pos h2] at h
          simp at h
        · rw [hasPath_succ_eq edges endv fuel start v h1 (by simpa using h2)] at h
          rcases fold_true start edges _ h with h3 | ⟨e, he, hs, u, hu⟩
          · simp at h3
          · have hstep : EdgeStep edges start e.2 := by
              show (start, e.2) ∈ edges
              rw [← hs]
              simpa using he
            exact Relation.ReflTransGen.head hstep (ih e.2 u hu)

theorem hasPath_false_spec (edges : List (Nat × Nat)) (endv : Nat) :
    ∀ (fuel start : Nat) (v : List Bool),
      countFalse v < fuel →
      start < v.length →
      (∀ e ∈ edges, e.2 < v.length) →
      (hasPath edges endv fuel start v).1 = false →
      (start ≠ endv ∧ (hasPath edges endv fuel start v).2.getD start false = true) ∧
      (∀ u, v.getD u false = false →
        (hasPath edges endv fuel start v).2.getD u false = true →
        ClosedAt edges endv (hasPath edges endv fuel start v).2 u) := by
  intro fuel
  induction fuel with
  | zero => intro start v hfuel _ _ _; omega
  | succ fuel ih =>
      -- the fold over the edge list, started on a freshly marked vector
      have fold_spec : ∀ (start : Nat) (es : List (Nat × Nat)) (u : List Bool),
          countFalse u < fuel →
          (∀ e ∈ edges, e.2 < u.length) →
          (∀ e ∈ es, e.2 < u.length) →
          (es.foldl (hpStep edges endv fuel start) (false, u)).1 = false →
          Subsumes u (es.foldl (hpStep edges endv fuel start) (false, u)).2 ∧
          (∀ e ∈ es, e.1 = start → e.2 ≠ endv ∧
            (es.foldl (hpStep edges endv fuel start) (false, u)).2.getD e.2 false = true) ∧
          (∀ x, u.getD x false = false →
            (es.foldl (hpStep edges endv fuel start) (false, u)).2.getD x false = true →
            ClosedAt edges endv
              (es.foldl (hpStep edges endv fuel start) (false, u)).2 x) := by
        intro start es
        induction es with
        | nil =>
            intro u _ _ _ _
            refine ⟨Subsumes.refl, by simp, fun x hx1 hx2 => ?_⟩
            rw [List.foldl_nil] at hx2
            rw [hx1] at hx2; cases hx2
        | cons e es ihe =>
            intro u hfu hall hes hfold
            rw [List.foldl_cons] at hfold ⊢
            by_cases he : e.1 = start
            · have hstep : hpStep edges endv fuel start (false, u) e =
                  hasPath edges endv fuel e.2 u := by
                simp [hpStep, he]
              by_cases hb : (hasPath edges endv fuel e.2 u).1 = true
              · exfalso
                have heta : hasPath edges endv fuel e.2 u =
                    (true, (hasPath edges endv fuel e.2 u).2) := by
                  rw [← hb]
                rw [hstep, heta, hasPath_fold_of_true] at hfold
                simp at hfold
              · have hb' : (hasPath edges endv fuel e.2 u).1 = false := by
                  simpa using hb
                have hsub1 : Subsumes u (hasPath edges endv fuel e.2 u).2 :=
                  hasPath_subsumes edges endv fuel e.2 u
                have hlen1 : (hasPath edges endv fuel e.2 u).2.length = u.length :=
                  hsub1.1
                have hcall := ih e.2 u hfu (hes e (List.mem_cons_self e es)) hall hb'
                have heta : hpStep edges endv fuel start (false, u) e =
                    (false, (hasPath edges endv fuel e.2 u).2) := by
                  rw [hstep, ← hb']
                rw [heta] at hfold ⊢
                have hrec := ihe (hasPath edges endv fuel e.2 u).2
                  (Nat.lt_of_le_of_lt (countFalse_le_of_subsumes _ _ hsub1) hfu)
                  (fun e' he' => hlen1 ▸ hall e' he')
                  (fun e' he' => hlen1 ▸ hes e' (List.mem_cons_of_mem e he'))
                  hfold
                refine ⟨Subsumes.trans hsub1 hrec.1, ?_, ?_⟩
                · intro e' he' hs'
                  rcases List.mem_cons.mp he' with rfl | hmem
                  · exact ⟨hcall.1.1, hrec.1.2 _ hcall.1.2⟩
                  · exact hrec.2.1 e' hmem hs'
                · intro x hx1 hx2
                  by_cases hmid : (hasPath edges endv fuel e.2 u).2.getD x false = true
                  · exact (hcall.2 x hx1 hmid).mono hrec.1
                  · exact hrec.2.2 x (by simpa using hmid) hx2
            · have hstep : hpStep edges endv fuel start (false, u) e = (false, u) := by
                simp [hpStep, he]
              rw [hstep] at hfold ⊢
              have hrec := ihe u hfu hall
                (fun e' he' => hes e' (List.mem_cons_of_mem e he')) hfold
              refine ⟨hrec.1, ?_, hrec.2.2⟩
              intro e' he' hs'
              rcases List.mem_cons.mp he' with rfl | hmem
              · exact absurd hs' he
              · exact hrec.2.1 e' hmem hs'
      intro start v hfuel hstart hall h
      by_cases h1 : start = endv
      · rw [hasPath] at h; simp [if_pos h1] at h
      · by_cases h2 : v.getD start false = true
        · have heq : hasPath edges endv (fuel + 1) start v = (false, v) := by
            rw [hasPath, if_neg h1, if_pos h2]
          rw [heq]
          refine ⟨⟨h1, h2⟩, fun u hu1 hu2 => ?_⟩
          rw [hu1] at hu2; cases hu2
        · have h2' : v.getD start false = false := by simpa using h2
          have heq := hasPath_succ_eq edges endv fuel start v h1 h2'
          rw [heq] at h ⊢
          have hfu : countFalse (v.set start true) < fuel := by
            have := countFalse_set_true v start hstart h2'
            omega
          have hlen : (v.set start true).length = v.length :=
            List.length_set v start true
          have hmarked : (v.set start true).getD start false = true :=
            getD_set_self true hstart
          have hfold := fold_spec start edges (v.set start true) hfu
            (fun e he => hlen ▸ hall e he) (fun e he => hlen ▸ hall e he) h
          refine ⟨⟨h1, hfold.1.2 start hmarked⟩, fun u hu1 hu2 => ?_⟩
          by_cases hus : u = start
          · refine ⟨hus ▸ h1, fun e he hs => ?_⟩
            exact hfold.2.1 e he (hus ▸ hs)
          · exact hfold.2.2 u (by rw [getD_set_other start true (fun hh => hus hh.symm), hu1]) hu2

/-- Correctness of `would_create_cycle` on well-formed DAGs: it reports a
cycle exactly when the graph already has a directed path from `t` back to
`f`. -/
theorem would_create_cycle_iff (dag : CircuitDag) (hwf : dag.WellFormed)
    (f t : Nat) (ht : t < dag.nodes.length) :
    (dag.would_create_cycle f t = true ↔ Reaches dag.edges t f) := by
  constructor
  · intro h
    exact hasPath_true_reaches dag.edges f _ t _ h
  · intro hr
    by_contra hfalse
    have h : (hasPath dag.edges f (dag.nodes.length + 1) t
        (List.replicate dag.nodes.length false)).1 = false := by
      simpa [CircuitDag.would_create_cycle] using hfalse
    have hspec := hasPath_false_spec dag.edges f (dag.nodes.length + 1) t
      (List.replicate dag.nodes.length false)
      (by rw [countFalse_replicate]; omega)
      (by simpa using ht)
      (fun e he => by simpa using (hwf e he).2)
      h
    have hstep : ∀ b, Reaches dag.edges t b →
        (hasPath dag.edges f (dag.nodes.length + 1) t
          (List.replicate dag.nodes.length false)).2.getD b false = true ∧ b ≠ f := by
      intro b hb
      induction hb with
      | refl => exact ⟨hspec.1.2, hspec.1.1⟩
      | tail hab hbc ihb =>
          have hclosed := hspec.2 _ (getD_replicate_false _ _) ihb.1
          have := hclosed.2 _ hbc rfl
          exact ⟨this.2, this.1⟩
    exact (hstep f hr).2 rfl

theorem modifyAt_get?_self {α : Type} (l : List α) (i : Nat) (f : α → α) :
    (modifyAt l i f).get? i = (l.get? i).map f := by
  unfold modifyAt
  cases h : l.get? i with
  | none => simp [h]; exact List.get?_eq_none.mp h
  | some a =>
      have hi : i < l.length := by
        rw [List.get?_eq_getElem?] at h
        exact (List.getElem?_eq_some.mp h).1
      simp [List.get?_eq_getElem?, List.getElem?_set, hi]

theorem modifyAt_get?_other {α : Type} (l : List α) (i : Nat) (f : α → α)
    {j : Nat} (h : j ≠ i) : (modifyAt l i f).get? j = l.get? j := by
  unfold modifyAt
  cases hg : l.get? i with
  | none => rfl
  | some a =>
      rw [List.get?_eq_getElem?, List.get?_eq_getElem?, List.getElem?_set,
        if_neg (fun hh : i = j => h hh.symm)]

/-- C6: full characterisation of `add_edge` on well-formed DAGs. It fails
with `CyclicDependency` exactly when both indices are in range and the
graph already has a path from `to` back to `from` (so the new edge would
close a cycle); it fails with `QubitNotFound` exactly when an index is out
of range; every error leaves the DAG unchanged; and success appends
`(from, to)` to `edges` and `from` to `nodes[to].depends_on`, leaving all
other nodes untouched. -/
theorem add_edge_spec (dag : CircuitDag) (hwf : dag.WellFormed) (f t : Nat) :
    ((∃ msg, (dag.add_edge f t).1 = .error (.CyclicDependency msg)) ↔
      (f < dag.nodes.length ∧ t < dag.nodes.length ∧ Reaches dag.edges t f)) ∧
    ((∃ msg, (dag.add_edge f t).1 = .error (.QubitNotFound msg)) ↔
      (dag.nodes.length ≤ f ∨ dag.nodes.length ≤ t)) ∧
    (∀ err, (dag.add_edge f t).1 = .error err → (dag.add_edge f t).2 = dag) ∧
    ((dag.add_edge f t).1 = .ok () →
      (dag.add_edge f t).2.edges = dag.edges ++ [(f, t)] ∧
      ((dag.add_edge f t).2.nodes.get? t =
        (dag.nodes.get? t).map
          (fun nd => { nd with depends_on := nd.depends_on ++ [f] })) ∧
      (∀ j, j ≠ t → (dag.add_edge f t).2.nodes.get? j = dag.nodes.get? j)) := by
  by_cases hr : dag.nodes.length ≤ f ∨ dag.nodes.length ≤ t
  · have hE : dag.add_edge f t =
        (.error (.QubitNotFound
          ("Node index out of bounds: from=" ++ toString f ++ ", to=" ++
            toString t)), dag) := by
      unfold CircuitDag.add_edge
      rw [if_pos hr]
    rw [hE]
    refine ⟨⟨fun ⟨msg, hmsg⟩ => by simp at hmsg,
        fun ⟨hf2, ht2, _⟩ => by rcases hr with h | h <;> omega⟩,
      ⟨fun _ => hr, fun _ => ⟨_, rfl⟩⟩,
      fun err _ => rfl,
      fun hok => by simp at hok⟩
  · have hf : f < dag.nodes.length := by omega
    have ht : t < dag.nodes.length := by omega
    by_cases hc : dag.would_create_cycle f t = true
    · have hreach := (would_create_cycle_iff dag hwf f t ht).mp hc
      have hE : dag.add_edge f t =
          (.error (.CyclicDependency
            ("Adding edge " ++ toString f ++ " -> " ++ toString t ++
              " would create a cycle")), dag) := by
        unfold CircuitDag.add_edge
        rw [if_neg hr, if_pos hc]
      rw [hE]
      refine ⟨⟨fun _ => ⟨hf, ht, hreach⟩, fun _ => ⟨_, rfl⟩⟩,
        ⟨fun ⟨msg, hmsg⟩ => by simp at hmsg, fun h => absurd h hr⟩,
        fun err _ => rfl,
        fun hok => by simp at hok⟩
    · have hnreach : ¬ Reaches dag.edges t f :=
        fun h => hc ((would_create_cycle_iff dag hwf f t ht).mpr h)
      have hE : dag.add_edge f t =
          (.ok (),
            { dag with
                edges := dag.edges ++ [(f, t)],
                nodes := modifyAt dag.nodes t
                  (fun n => { n with depends_on := n.depends_on ++ [f] }),
                cached_depth := none }) := by
        unfold CircuitDag.add_edge
        rw [if_neg hr, if_neg hc]
      rw [hE]
      refine ⟨⟨fun ⟨msg, hmsg⟩ => by simp at hmsg,
          fun ⟨_, _, h⟩ => absurd h hnreach⟩,
        ⟨fun ⟨msg, hmsg⟩ => by simp at hmsg, fun h => absurd h hr⟩,
        fun err herr => by simp at herr,
        fun _ => ⟨rfl, modifyAt_get?_self _ _ _,
          fun j hj => modifyAt_get?_other _ _ _ hj⟩⟩

/-- Witness for C6 at a concrete input: on the two-node chain, adding the
reverse edge `1 → 0` is rejected as a cycle and leaves the DAG unchanged,
and the out-of-range edge `2 → 0` is rejected as `QubitNotFound`. -/
theorem add_edge_spec_witness :
    (∃ msg, (chainDag.add_edge 1 0).1 = .error (.CyclicDependency msg)) ∧
    (chainDag.add_edge 1 0).2 = chainDag ∧
    (∃ msg, (chainDag.add_edge 2 0).1 = .error (.QubitNotFound msg)) := by
  have hwf : chainDag.WellFormed := by
    unfold CircuitDag.WellFormed
    decide
  have hs := add_edge_spec chainDag hwf 1 0
  have hreach : Reaches chainDag.edges 0 1 :=
    Relation.ReflTransGen.single (by show (0, 1) ∈ chainDag.edges; decide)
  obtain ⟨msg, hmsg⟩ := hs.1.mpr ⟨by decide, by decide, hreach⟩
  exact ⟨⟨msg, hmsg⟩, hs.2.2.1 _ hmsg,
    (add_edge_spec chainDag hwf 2 0).2.1.mpr (Or.inl (by decide))⟩

/-! ### Correctness of `topological_sort` (Kahn's algorithm)

The loop invariant counts, for every node `v`, the edges into `v` whose
source has not been emitted yet; the in-degree vector always carries
exactly that number. -/

/-- Number of copies of the edge `(node, v)` in `es`. -/
def cntEdges (es : List (Nat × Nat)) (node v : Nat) : Nat :=
  (es.filter (fun e => decide (e.1 = node) && decide (e.2 = v))).length

/-- Number of edges into `v` whose source is not in `result`. -/
def pendCount (edges : List (Nat × Nat)) (result : List Nat) (v : Nat) : Nat :=
  (edges.filter (fun e => decide (e.2 = v) && !(decide (e.1 ∈ result)))).length

theorem cntEdges_cons (e : Nat × Nat) (es : List (Nat × Nat)) (node v : Nat) :
    cntEdges (e :: es) node v =
      (if e.1 = node ∧ e.2 = v then 1 else 0) + cntEdges es node v := by
  by_cases h : e.1 = node ∧ e.2 = v
  · simp [cntEdges, List.filter_cons, h.1, h.2, if_pos h, Nat.add_comm]
  · rw [if_neg h]
    rcases Decidable.not_and_iff_or_not.mp h with h1 | h1 <;>
      simp [cntEdges, List.filter_cons, h1]

theorem pendCount_cons (e : Nat × Nat) (edges : List (Nat × Nat))
    (result : List Nat) (v : Nat) :
    pendCount (e :: edges) result v =
      (if e.2 = v ∧ e.1 ∉ result then 1 else 0) + pendCount edges result v := by
  by_cases h : e.2 = v ∧ e.1 ∉ result
  · simp [pendCount, List.filter_cons, h.1, h.2, Nat.add_comm]
  · rw [if_neg h]
    rcases Decidable.not_and_iff_or_not.mp h with h1 | h1
    · simp [pendCount, List.filter_cons, h1]
    · have h2 : e.1 ∈ result := Decidable.not_not.mp h1
      simp [pendCount, List.filter_cons, h2]

theorem cntEdges_le_pendCount (edges : List (Nat × Nat)) (result : List Nat)
    (node : Nat) (hnode : node ∉ result) (v : Nat) :
    cntEdges edges node v ≤ pendCount edges result v := by
  induction edges with
  | nil => exact Nat.le.refl
  | cons e es ih =>
      rw [cntEdges_cons, pendCount_cons]
      by_cases h : e.1 = node ∧ e.2 = v
      · rw [if_pos h,
          if_pos (show e.2 = v ∧ e.1 ∉ result from ⟨h.2, h.1.symm ▸ hnode⟩)]
        omega
      · rw [if_neg h]
        have : (if e.2 = v ∧ e.1 ∉ result then 1 else 0) + pendCount es result v ≥
            pendCount es result v := by omega
        omega

theorem pendCount_snoc (edges : List (Nat × Nat)) (result : List Nat)
    (node : Nat) (hnode : node ∉ result) (v : Nat) :
    pendCount edges (result ++ [node]) v + cntEdges edges node v =
      pendCount edges result v := by
  induction edges with
  | nil => rfl
  | cons e es ih =>
      rw [cntEdges_cons, pendCount_cons, pendCount_cons]
      by_cases hv : e.2 = v
      · by_cases hn : e.1 = node
        · have c1 : ¬ (e.2 = v ∧ e.1 ∉ result ++ [node]) := by
            intro hh
            exact hh.2 (by rw [hn]; exact List.mem_append_right _ (by simp))
          rw [if_pos (show e.1 = node ∧ e.2 = v from ⟨hn, hv⟩), if_neg c1,
            if_pos (show e.2 = v ∧ e.1 ∉ result from ⟨hv, hn.symm ▸ hnode⟩)]
          omega
        · have c1 : ¬ (e.1 = node ∧ e.2 = v) := fun hh => hn hh.1
          by_cases hr : e.1 ∈ result
          · have c2 : ¬ (e.2 = v ∧ e.1 ∉ result ++ [node]) := fun hh =>
              hh.2 (List.mem_append_left _ hr)
            have c3 : ¬ (e.2 = v ∧ e.1 ∉ result) := fun hh => hh.2 hr
            rw [if_neg c1, if_neg c2, if_neg c3]
            omega
          · have c2 : e.1 ∉ result ++ [node] := by
              intro hh
              rcases List.mem_append.mp hh with h | h
              · exact hr h
              · rw [List.mem_singleton] at h
                exact hn h
            rw [if_neg c1,
              if_pos (show e.2 = v ∧ e.1 ∉ result ++ [node] from ⟨hv, c2⟩),
              if_pos (show e.2 = v ∧ e.1 ∉ result from ⟨hv, hr⟩)]
            omega
      · have c1 : ¬ (e.1 = node ∧ e.2 = v) := fun hh => hv hh.2
        have c2 : ¬ (e.2 = v ∧ e.1 ∉ result ++ [node]) := fun hh => hv hh.1
        have c3 : ¬ (e.2 = v ∧ e.1 ∉ result) := fun hh => hv hh.1
        rw [if_neg c1, if_neg c2, if_neg c3]
        omega

theorem pendCount_zero_sources (edges : List (Nat × Nat)) (result : List Nat)
    (v : Nat) (h : pendCount edges result v = 0) :
    ∀ e ∈ edges, e.2 = v → e.1 ∈ result := by
  induction edges with
  | nil => intro e he; cases he
  | cons e es ih =>
      rw [pendCount_cons] at h
      intro e' he' hv
      rcases List.mem_cons.mp he' with rfl | hmem
      · by_contra hr
        rw [if_pos ⟨hv, hr⟩] at h
        omega
      · have : pendCount es result v = 0 := by omega
        exact ih this e' hmem hv

theorem getD_nat_set_self {l : List Nat} {i : Nat} (b : Nat)
    (h : i < l.length) : (l.set i b).getD i 0 = b := by
  rw [List.getD_eq_getElem?_getD, List.getElem?_set]
  simp [h]

theorem getD_nat_set_other {l : List Nat} (i : Nat) {j : Nat} (b : Nat)
    (h : j ≠ i) : (l.set i b).getD j 0 = l.getD j 0 := by
  rw [List.getD_eq_getElem?_getD, List.getElem?_set,
    if_neg (fun hh : i = j => h hh.symm), ← List.getD_eq_getElem?_getD]

/-- Characterisation of the inner edge scan: in-degrees drop by the number
of edges leaving `node`, and exactly the targets whose pending count hits
zero are enqueued (each once). -/
theorem topoProcess_spec (node n : Nat) :
    ∀ (es : List (Nat × Nat)), (∀ e ∈ es, e.2 < n) →
    ∀ (deg rest : List Nat), deg.length = n →
      (∀ v, v < n → cntEdges es node v ≤ deg.getD v 0) →
      (topoProcess es node (deg, rest)).1.length = n ∧
      (∀ v, v < n → (topoProcess es node (deg, rest)).1.getD v 0 =
        deg.getD v 0 - cntEdges es node v) ∧
      ∃ pushed : List Nat,
        (topoProcess es node (deg, rest)).2 = pushed ++ rest ∧
        pushed.Nodup ∧
        ∀ p, p ∈ pushed ↔
          (0 < cntEdges es node p ∧ deg.getD p 0 = cntEdges es node p) := by
  intro es
  induction es with
  | nil =>
      intro _ deg rest hlen _
      refine ⟨hlen, fun v _ => by simp [topoProcess, cntEdges], [], rfl, List.nodup_nil, ?_⟩
      intro p
      simp [cntEdges]
  | cons e es ih =>
      intro hwf deg rest hlen hle
      have hstep : topoProcess (e :: es) node (deg, rest) =
          topoProcess es node
            (if e.1 = node then
              (if deg.getD e.2 0 - 1 = 0 then
                (deg.set e.2 (deg.getD e.2 0 - 1), e.2 :: rest)
               else (deg.set e.2 (deg.getD e.2 0 - 1), rest))
             else (deg, rest)) := rfl
      by_cases hn : e.1 = node
      · have ht : e.2 < n := hwf e (List.mem_cons_self e es)
        have hcons : ∀ v, cntEdges (e :: es) node v =
            (if e.2 = v then 1 else 0) + cntEdges es node v := by
          intro v
          rw [cntEdges_cons]
          by_cases hv : e.2 = v
          · rw [if_pos (show e.1 = node ∧ e.2 = v from ⟨hn, hv⟩), if_pos hv]
          · rw [if_neg (fun hh => hv hh.2), if_neg hv]
        have hle_t : cntEdges es node e.2 + 1 ≤ deg.getD e.2 0 := by
          have := hle e.2 ht
          rw [hcons e.2, if_pos rfl] at this
          omega
        have hlen1 : (deg.set e.2 (deg.getD e.2 0 - 1)).length = n := by
          rw [List.length_set]; exact hlen
        have hdeg1 : ∀ v, v < n →
            (deg.set e.2 (deg.getD e.2 0 - 1)).getD v 0 =
              deg.getD v 0 - (if e.2 = v then 1 else 0) := by
          intro v hv
          by_cases hev : v = e.2
          · rw [hev, getD_nat_set_self _ (by omega), if_pos rfl]
          · rw [getD_nat_set_other _ _ hev, if_neg (fun hh => hev hh.symm)]
            omega
        have hle1 : ∀ v, v < n → cntEdges es node v ≤
            (deg.set e.2 (deg.getD e.2 0 - 1)).getD v 0 := by
          intro v hv
          rw [hdeg1 v hv]
          have hv2 := hle v hv
          rw [hcons v] at hv2
          by_cases hev : e.2 = v
          · rw [if_pos hev] at hv2 ⊢; omega
          · rw [if_neg hev] at hv2 ⊢; omega
        have hwf' : ∀ e' ∈ es, e'.2 < n :=
          fun e' he' => hwf e' (List.mem_cons_of_mem e he')
        by_cases hz : deg.getD e.2 0 - 1 = 0
        · -- the target is pushed
          rw [hstep, if_pos hn, if_pos hz]
          obtain ⟨hl, hd, pushed, hp, hnodup, hmem⟩ :=
            ih hwf' (deg.set e.2 (deg.getD e.2 0 - 1)) (e.2 :: rest) hlen1 hle1
          refine ⟨hl, ?_, pushed ++ [e.2], ?_, ?_, ?_⟩
          · intro v hv
            rw [hd v hv, hdeg1 v hv, hcons v]
            by_cases hev : e.2 = v
            · rw [if_pos hev]
              have h1 : cntEdges es node v + 1 ≤ deg.getD v 0 := hev ▸ hle_t
              omega
            · rw [if_neg hev]
              omega
          · rw [hp, List.append_assoc]
            rfl
          · refine hnodup.append (List.nodup_singleton _) ?_
            intro p hp1 hp2
            rw [List.mem_singleton] at hp2
            obtain ⟨hpos, hdeq⟩ := (hmem p).mp hp1
            rw [hp2] at hpos hdeq
            have h1 := hdeg1 e.2 ht
            rw [if_pos rfl] at h1
            omega
          · intro p
            rw [List.mem_append, List.mem_singleton, hmem p, hcons p]
            by_cases hev : e.2 = p
            · rw [if_pos hev]
              have h1 : cntEdges es node p + 1 ≤ deg.getD p 0 := hev ▸ hle_t
              have h2 : deg.getD p 0 - 1 = 0 := hev ▸ hz
              constructor
              · intro _
                exact ⟨by omega, by omega⟩
              · intro _
                exact Or.inr hev.symm
            · rw [if_neg hev]
              have hd1 : (deg.set e.2 (deg.getD e.2 0 - 1)).getD p 0 =
                  deg.getD p 0 := getD_nat_set_other _ _ (fun hh => hev hh.symm)
              rw [hd1]
              constructor
              · rintro (⟨h1, h2⟩ | h1)
                · exact ⟨by omega, by omega⟩
                · exact absurd h1.symm hev
              · rintro ⟨h1, h2⟩
                exact Or.inl ⟨by omega, by omega⟩
        · -- the target keeps a positive pending count
          rw [hstep, if_pos hn, if_neg hz]
          obtain ⟨hl, hd, pushed, hp, hnodup, hmem⟩ :=
            ih hwf' (deg.set e.2 (deg.getD e.2 0 - 1)) rest hlen1 hle1
          refine ⟨hl, ?_, pushed, hp, hnodup, ?_⟩
          · intro v hv
            rw [hd v hv, hdeg1 v hv, hcons v]
            by_cases hev : e.2 = v
            · rw [if_pos hev]
              have h1 : cntEdges es node v + 1 ≤ deg.getD v 0 := hev ▸ hle_t
              omega
            · rw [if_neg hev]
              omega
          · intro p
            rw [hmem p, hcons p]
            by_cases hev : e.2 = p
            · have h1 : cntEdges es node p + 1 ≤ deg.getD p 0 := hev ▸ hle_t
              have h2 : ¬ (deg.getD p 0 - 1 = 0) := hev ▸ hz
              have hd1 : (deg.set e.2 (deg.getD e.2 0 - 1)).getD p 0 =
                  deg.getD p 0 - 1 := by
                have h3 := hdeg1 p (hev ▸ ht)
                rw [if_pos hev] at h3
                exact h3
              rw [if_pos hev, hd1]
              constructor
              · rintro ⟨a1, a2⟩
                exact ⟨by omega, by omega⟩
              · rintro ⟨a1, a2⟩
                exact ⟨by omega, by omega⟩
            · have hd1 : (deg.set e.2 (deg.getD e.2 0 - 1)).getD p 0 =
                  deg.getD p 0 := getD_nat_set_other _ _ (fun hh => hev hh.symm)
              rw [if_neg hev, hd1]
              constructor
              · rintro ⟨a1, a2⟩
                exact ⟨by omega, by omega⟩
              · rintro ⟨a1, a2⟩
                exact ⟨by omega, by omega⟩
      · rw [hstep, if_neg hn]
        have hcnt : ∀ v, cntEdges (e :: es) node v = cntEdges es node v := by
          intro v
          rw [cntEdges_cons, if_neg (fun hh => hn hh.1)]
          omega
        obtain ⟨hl, hd, pushed, hp, hnodup, hmem⟩ :=
          ih (fun e' he' => hwf e' (List.mem_cons_of_mem e he')) deg rest hlen
            (fun v hv => (hcnt v) ▸ hle v hv)
        exact ⟨hl, fun v hv => by rw [hd v hv, hcnt v], pushed, hp, hnodup,
          fun p => by rw [hcnt p]; exact hmem p⟩

theorem cntEdges_pos_witness (es : List (Nat × Nat)) (node v : Nat)
    (h : cntEdges es node v ≠ 0) : ∃ e ∈ es, e.1 = node ∧ e.2 = v := by
  induction es with
  | nil => exact absurd rfl h
  | cons e es ih =>
      rw [cntEdges_cons] at h
      by_cases hc : e.1 = node ∧ e.2 = v
      · exact ⟨e, List.mem_cons_self e es, hc⟩
      · rw [if_neg hc] at h
        obtain ⟨e', he', hc'⟩ := ih (by omega)
        exact ⟨e', List.mem_cons_of_mem e he', hc'⟩

theorem pendCount_pos_witness (edges : List (Nat × Nat)) (result : List Nat)
    (v : Nat) (h : pendCount edges result v ≠ 0) :
    ∃ e ∈ edges, e.2 = v ∧ e.1 ∉ result := by
  induction edges with
  | nil => exact absurd rfl h
  | cons e es ih =>
      rw [pendCount_cons] at h
      by_cases hc : e.2 = v ∧ e.1 ∉ result
      · exact ⟨e, List.mem_cons_self e es, hc⟩
      · rw [if_neg hc] at h
        obtain ⟨e', he', hc'⟩ := ih (by omega)
        exact ⟨e', List.mem_cons_of_mem e he', hc'⟩

theorem indexOf_append_left (l l' : List Nat) (a : Nat) (h : a ∈ l) :
    (l ++ l').indexOf a = l.indexOf a := by
  induction l with
  | nil => cases h
  | cons b bs ih =>
      rw [List.cons_append, List.indexOf_cons, List.indexOf_cons]
      by_cases hba : b = a
      · simp [hba]
      · have hbeq : (b == a) = false := by simp [hba]
        rw [hbeq]
        simp only [Bool.cond_false]
        rcases List.mem_cons.mp h with heq | hmem
        · exact absurd heq.symm hba
        · rw [ih hmem]

theorem indexOf_append_right (l : List Nat) (a : Nat) (h : a ∉ l) :
    (l ++ [a]).indexOf a = l.length := by
  induction l with
  | nil => simp [List.indexOf_cons]
  | cons b bs ih =>
      have hba : (b == a) = false := by
        simp only [beq_eq_false_iff_ne, ne_eq]
        intro hh
        exact h (hh ▸ List.mem_cons_self b bs)
      rw [List.cons_append, List.indexOf_cons, hba]
      simp only [Bool.cond_false]
      rw [ih (fun hm => h (List.mem_cons_of_mem b hm))]
      simp

/-- The Kahn loop invariant, tying together the work list, the visited
flags, the in-degree vector, and the emitted prefix of the result. -/
structure KahnInv (edges : List (Nat × Nat)) (n : Nat) (q : List Nat)
    (visited : List Bool) (deg : List Nat) (result : List Nat) : Prop where
  hvlen : visited.length = n
  hdlen : deg.length = n
  hres_nodup : result.Nodup
  hres_lt : ∀ u ∈ result, u < n
  hvis : ∀ u, u < n → (visited.getD u false = true ↔ u ∈ result)
  hdeg : ∀ v, v < n → deg.getD v 0 = pendCount edges result v
  hq_nodup : q.Nodup
  hq : ∀ u ∈ q, u < n ∧ deg.getD u 0 = 0 ∧ u ∉ result
  hready : ∀ v, v < n → v ∉ result → deg.getD v 0 = 0 → v ∈ q
  hresdeg : ∀ u ∈ result, deg.getD u 0 = 0
  horder : ∀ e ∈ edges, e.2 ∈ result →
    e.1 ∈ result ∧ result.indexOf e.1 < result.indexOf e.2

/-- Iteration budget of the Kahn loop: queued entries plus unvisited nodes
not yet queued. It drops by exactly one every iteration. -/
def kahnB (n : Nat) (q : List Nat) (visited : List Bool) : Nat :=
  q.length + ((Finset.range n).filter
    (fun v => visited.getD v false = false ∧ v ∉ q)).card

/-- The contract of a finished topological sort. -/
def TopoOk (edges : List (Nat × Nat)) (n : Nat) (result : List Nat) : Prop :=
  result.Nodup ∧ (∀ v, v ∈ result ↔ v < n) ∧
  ∀ e ∈ edges, e.1 ∈ result ∧ e.2 ∈ result ∧
    result.indexOf e.1 < result.indexOf e.2

/-- In an acyclic graph no non-empty node set can be closed under "has a
predecessor inside the set": iterating a predecessor choice and applying
the pigeonhole principle would yield a cycle. -/
theorem acyclic_no_closed_pred (edges : List (Nat × Nat))
    (hacyc : Acyclic edges) (S : Finset Nat) (hS : S.Nonempty)
    (hpred : ∀ v ∈ S, ∃ u ∈ S, (u, v) ∈ edges) : False := by
  classical
  obtain ⟨s0, hs0⟩ := hS
  have hf : ∀ v : {x // x ∈ S}, ∃ u : {x // x ∈ S}, (u.1, v.1) ∈ edges := by
    intro v
    obtain ⟨u, hu, he⟩ := hpred v.1 v.2
    exact ⟨⟨u, hu⟩, he⟩
  choose f hfe using hf
  have hchain : ∀ i k, Relation.TransGen (EdgeStep edges)
      (f^[i + k + 1] ⟨s0, hs0⟩).1 (f^[i] ⟨s0, hs0⟩).1 := by
    intro i k
    induction k with
    | zero =>
        rw [Function.iterate_succ_apply']
        exact Relation.TransGen.single (hfe (f^[i] ⟨s0, hs0⟩))
    | succ k ihk =>
        have h1 : f^[i + (k + 1) + 1] ⟨s0, hs0⟩ = f (f^[i + k + 1] ⟨s0, hs0⟩) :=
          Function.iterate_succ_apply' f (i + k + 1) ⟨s0, hs0⟩
        rw [h1]
        exact Relation.TransGen.head (hfe (f^[i + k + 1] ⟨s0, hs0⟩)) ihk
  obtain ⟨a, b, hab, heq⟩ := Fintype.exists_ne_map_eq_of_card_lt
    (fun i : Fin (S.card + 1) => f^[i.1] ⟨s0, hs0⟩)
    (by simp [Fintype.card_coe])
  have hne : a.1 ≠ b.1 := fun hh => hab (Fin.ext hh)
  rcases Nat.lt_or_ge a.1 b.1 with hlt | hge
  · have hb : b.1 = a.1 + (b.1 - a.1 - 1) + 1 := by omega
    have hc := hchain a.1 (b.1 - a.1 - 1)
    rw [← hb, ← heq] at hc
    exact hacyc _ hc
  · have hlt2 : b.1 < a.1 := by omega
    have ha : a.1 = b.1 + (a.1 - b.1 - 1) + 1 := by omega
    have hc := hchain b.1 (a.1 - b.1 - 1)
    rw [← ha, heq] at hc
    exact hacyc _ hc

/-- When the work list is empty, the invariant plus acyclicity forces the
result to be a complete topological order. -/
theorem kahn_endgame (edges : List (Nat × Nat)) (n : Nat)
    (hwf : ∀ e ∈ edges, e.1 < n ∧ e.2 < n) (hacyc : Acyclic edges)
    (visited : List Bool) (deg result : List Nat)
    (inv : KahnInv edges n [] visited deg result) : TopoOk edges n result := by
  classical
  have hcomplete : ∀ v, v < n → v ∈ result := by
    by_contra hnc
    push_neg at hnc
    have hS : ((Finset.range n).filter (fun v => v ∉ result)).Nonempty := by
      obtain ⟨v, hv, hvr⟩ := hnc
      exact ⟨v, Finset.mem_filter.mpr ⟨Finset.mem_range.mpr hv, hvr⟩⟩
    refine acyclic_no_closed_pred edges hacyc _ hS ?_
    intro v hv
    rw [Finset.mem_filter, Finset.mem_range] at hv
    have hdegv : deg.getD v 0 ≠ 0 := by
      intro h0
      exact absurd (inv.hready v hv.1 hv.2 h0) (List.not_mem_nil v)
    have hpend : pendCount edges result v ≠ 0 := by
      rw [← inv.hdeg v hv.1]; exact hdegv
    obtain ⟨e, he, hv2, hnres⟩ := pendCount_pos_witness edges result v hpend
    refine ⟨e.1, Finset.mem_filter.mpr
      ⟨Finset.mem_range.mpr (hwf e he).1, hnres⟩, ?_⟩
    rw [← hv2]
    exact he
  refine ⟨inv.hres_nodup, fun v => ⟨fun hv => inv.hres_lt v hv,
    fun hv => hcomplete v hv⟩, fun e he => ?_⟩
  have h2 : e.2 ∈ result := hcomplete e.2 (hwf e he).2
  obtain ⟨h1, hidx⟩ := inv.horder e he h2
  exact ⟨h1, h2, hidx⟩

/-- The Kahn loop preserves the invariant and its budget drops by one per
iteration, so with sufficient fuel it terminates on an empty work list and
the endgame applies. -/
theorem topoLoop_final (edges : List (Nat × Nat)) (n : Nat)
    (hwf : ∀ e ∈ edges, e.1 < n ∧ e.2 < n) (hacyc : Acyclic edges) :
    ∀ (fuel : Nat) (q : List Nat) (visited : List Bool) (deg result : List Nat),
      KahnInv edges n q visited deg result →
      kahnB n q visited ≤ fuel →
      TopoOk edges n (topoLoop edges fuel q visited deg result) := by
  intro fuel
  induction fuel with
  | zero =>
      intro q visited deg result inv hB
      cases q with
      | nil =>
          show TopoOk edges n result
          exact kahn_endgame edges n hwf hacyc visited deg result inv
      | cons node rest =>
          exfalso
          have h1 : rest.length + 1 ≤ kahnB n (node :: rest) visited := by
            unfold kahnB
            rw [List.length_cons]
            omega
          omega
  | succ fuel ih =>
      intro q visited deg result inv hB
      cases q with
      | nil =>
          show TopoOk edges n result
          exact kahn_endgame edges n hwf hacyc visited deg result inv
      | cons node rest =>
          obtain ⟨hnode_lt, hnode_deg, hnode_notres⟩ :=
            inv.hq node (List.mem_cons_self node rest)
          have hnode_unvis : visited.getD node false = false := by
            cases hvv : visited.getD node false
            · rfl
            · exact absurd ((inv.hvis node hnode_lt).mp hvv) hnode_notres
          have hnode_notrest : node ∉ rest := (List.nodup_cons.mp inv.hq_nodup).1
          have hrest_nodup : rest.Nodup := (List.nodup_cons.mp inv.hq_nodup).2
          have hloop : topoLoop edges (fuel + 1) (node :: rest) visited deg result =
              topoLoop edges fuel (topoProcess edges node (deg, rest)).2
                (visited.set node true) (topoProcess edges node (deg, rest)).1
                (result ++ [node]) := by
            rw [topoLoop, if_neg (by rw [hnode_unvis]; exact Bool.false_ne_true)]
          rw [hloop]
          have hcnt_le : ∀ v, v < n → cntEdges edges node v ≤ deg.getD v 0 := by
            intro v hv
            rw [inv.hdeg v hv]
            exact cntEdges_le_pendCount edges result node hnode_notres v
          obtain ⟨hplen, hpdeg, pushed, hpq, hpnodup, hpmem⟩ :=
            topoProcess_spec node n edges (fun e he => (hwf e he).2) deg rest
              inv.hdlen hcnt_le
          have hpush_facts : ∀ p ∈ pushed, p < n ∧ p ∉ result ∧ p ≠ node ∧
              p ∉ rest ∧ visited.getD p false = false := by
            intro p hp
            obtain ⟨hpos, hdeq⟩ := (hpmem p).mp hp
            obtain ⟨e, he, he1, he2⟩ := cntEdges_pos_witness edges node p (by omega)
            have hplt : p < n := he2 ▸ (hwf e he).2
            have hp_nres : p ∉ result := by
              intro hr
              have := inv.hresdeg p hr
              omega
            have hp_nnode : p ≠ node := by
              intro hh
              rw [hh] at hdeq hpos
              omega
            have hp_nrest : p ∉ rest := by
              intro hr
              have := (inv.hq p (List.mem_cons_of_mem node hr)).2.1
              omega
            have hp_unvis : visited.getD p false = false := by
              cases hvv : visited.getD p false
              · rfl
              · exact absurd ((inv.hvis p hplt).mp hvv) hp_nres
            exact ⟨hplt, hp_nres, hp_nnode, hp_nrest, hp_unvis⟩
          -- the new invariant
          have hvlen' : (visited.set node true).length = n := by
            rw [List.length_set]; exact inv.hvlen
          have hvis' : ∀ u, u < n →
              ((visited.set node true).getD u false = true ↔
                u ∈ result ++ [node]) := by
            intro u hu
            by_cases hun : u = node
            · rw [hun, getD_set_self true (by rw [inv.hvlen]; exact hnode_lt)]
              simp
            · rw [getD_set_other node true (fun hh => hun hh.symm)]
              rw [List.mem_append, List.mem_singleton]
              constructor
              · intro hh; exact Or.inl ((inv.hvis u hu).mp hh)
              · rintro (hh | hh)
                · exact (inv.hvis u hu).mpr hh
                · exact absurd hh hun
          have hres_nodup' : (result ++ [node]).Nodup := by
            refine inv.hres_nodup.append (List.nodup_singleton node) ?_
            intro a ha ha2
            rw [List.mem_singleton] at ha2
            exact hnode_notres (ha2 ▸ ha)
          have inv' : KahnInv edges n (topoProcess edges node (deg, rest)).2
              (visited.set node true) (topoProcess edges node (deg, rest)).1
              (result ++ [node]) := by
            refine ⟨hvlen', hplen, hres_nodup', ?_, hvis', ?_, ?_, ?_, ?_, ?_, ?_⟩
            · intro u hu
              rcases List.mem_append.mp hu with hh | hh
              · exact inv.hres_lt u hh
              · rw [List.mem_singleton] at hh; exact hh ▸ hnode_lt
            · intro v hv
              rw [hpdeg v hv, inv.hdeg v hv]
              have hsnoc := pendCount_snoc edges result node hnode_notres v
              omega
            · rw [hpq]
              refine hpnodup.append hrest_nodup ?_
              intro a ha ha2
              exact (hpush_facts a ha).2.2.2.1 ha2
            · rw [hpq]
              intro u hu
              rcases List.mem_append.mp hu with hh | hh
              · obtain ⟨hlt, hnres, hnnode, _, _⟩ := hpush_facts u hh
                obtain ⟨hpos, hdeq⟩ := (hpmem u).mp hh
                refine ⟨hlt, ?_, ?_⟩
                · rw [hpdeg u hlt]; omega
                · intro hr
                  rcases List.mem_append.mp hr with hh2 | hh2
                  · exact hnres hh2
                  · rw [List.mem_singleton] at hh2; exact hnnode hh2
              · obtain ⟨hlt, hdeq, hnres⟩ := inv.hq u (List.mem_cons_of_mem node hh)
                have hunnode : u ≠ node := fun hh2 => hnode_notrest (hh2 ▸ hh)
                refine ⟨hlt, ?_, ?_⟩
                · rw [hpdeg u hlt]; omega
                · intro hr
                  rcases List.mem_append.mp hr with hh2 | hh2
                  · exact hnres hh2
                  · rw [List.mem_singleton] at hh2; exact hunnode hh2
            · intro v hv hvres hvdeg
              rw [hpdeg v hv] at hvdeg
              have hle := hcnt_le v hv
              have hvnres : v ∉ result := fun hh => hvres (List.mem_append_left _ hh)
              have hvnnode : v ≠ node := fun hh => hvres (by
                rw [List.mem_append, List.mem_singleton]; exact Or.inr hh)
              rw [hpq]
              by_cases hdz : deg.getD v 0 = 0
              · have hin := inv.hready v hv hvnres hdz
                rcases List.mem_cons.mp hin with hh | hh
                · exact absurd hh hvnnode
                · exact List.mem_append_right _ hh
              · have hvp : v ∈ pushed := (hpmem v).mpr ⟨by omega, by omega⟩
                exact List.mem_append_left _ hvp
            · intro u hu
              rcases List.mem_append.mp hu with hh | hh
              · have := inv.hresdeg u hh
                rw [hpdeg u (inv.hres_lt u hh)]
                omega
              · rw [List.mem_singleton] at hh
                rw [hh, hpdeg node hnode_lt]
                omega
            · intro e he he2
              rcases List.mem_append.mp he2 with hh | hh
              · obtain ⟨h1, hidx⟩ := inv.horder e he hh
                refine ⟨List.mem_append_left _ h1, ?_⟩
                rw [indexOf_append_left _ _ _ h1, indexOf_append_left _ _ _ hh]
                exact hidx
              · rw [List.mem_singleton] at hh
                have hpend0 : pendCount edges result node = 0 := by
                  have := inv.hdeg node hnode_lt
                  omega
                have h1 : e.1 ∈ result :=
                  pendCount_zero_sources edges result node hpend0 e he hh
                refine ⟨List.mem_append_left _ h1, ?_⟩
                rw [indexOf_append_left _ _ _ h1, hh,
                  indexOf_append_right _ _ hnode_notres]
                exact List.indexOf_lt_length.mpr h1
          -- budget decrease
          have hBstep : kahnB n (topoProcess edges node (deg, rest)).2
              (visited.set node true) + 1 ≤ kahnB n (node :: rest) visited := by
            classical
            rw [hpq]
            have hXeq : (Finset.range n).filter
                (fun v => (visited.set node true).getD v false = false ∧
                  v ∉ pushed ++ rest) =
                ((Finset.range n).filter
                  (fun v => visited.getD v false = false ∧ v ∉ node :: rest)) \
                  pushed.toFinset := by
              ext v
              rw [Finset.mem_sdiff, Finset.mem_filter, Finset.mem_filter,
                List.mem_toFinset]
              constructor
              · rintro ⟨hvr, hvv, hvq⟩
                have hvnode : v ≠ node := by
                  intro hh
                  rw [hh, getD_set_self true
                    (by rw [inv.hvlen]; exact hnode_lt)] at hvv
                  cases hvv
                rw [getD_set_other node true (fun hh => hvnode hh.symm)] at hvv
                rw [List.mem_append] at hvq
                push_neg at hvq
                refine ⟨⟨hvr, hvv, ?_⟩, hvq.1⟩
                rw [List.mem_cons]
                push_neg
                exact ⟨hvnode, hvq.2⟩
              · rintro ⟨⟨hvr, hvv, hvq⟩, hvp⟩
                rw [List.mem_cons] at hvq
                push_neg at hvq
                refine ⟨hvr, ?_, ?_⟩
                · rw [getD_set_other node true (fun hh => hvq.1 hh.symm)]
                  exact hvv
                · rw [List.mem_append]
                  push_neg
                  exact ⟨hvp, hvq.2⟩
            have hPsub : pushed.toFinset ⊆ (Finset.range n).filter
                (fun v => visited.getD v false = false ∧ v ∉ node :: rest) := by
              intro p hp
              rw [List.mem_toFinset] at hp
              obtain ⟨hplt, _, hpnnode, hpnrest, hpunvis⟩ := hpush_facts p hp
              rw [Finset.mem_filter, Finset.mem_range]
              refine ⟨hplt, hpunvis, ?_⟩
              rw [List.mem_cons]
              push_neg
              exact ⟨hpnnode, hpnrest⟩
            have hcard : ((Finset.range n).filter
                (fun v => (visited.set node true).getD v false = false ∧
                  v ∉ pushed ++ rest)).card =
                ((Finset.range n).filter
                  (fun v => visited.getD v false = false ∧ v ∉ node :: rest)).card -
                  pushed.length := by
              rw [hXeq, Finset.card_sdiff hPsub, List.toFinset_card_of_nodup hpnodup]
            have hPle := Finset.card_le_card hPsub
            rw [List.toFinset_card_of_nodup hpnodup] at hPle
            unfold kahnB
            rw [hcard]
            rw [List.length_append, List.length_cons]
            omega
          exact ih _ _ _ _ inv' (by omega)

theorem getD_replicate_zero (n i : Nat) :
    (List.replicate n (0 : Nat)).getD i 0 = 0 := by
  induction n generalizing i with
  | zero => simp [List.getD]
  | succ n ih =>
      cases i with
      | zero => simp [List.replicate]
      | succ j => simpa [List.replicate, List.getD_cons_succ] using ih j

theorem initInDegree_go (n : Nat) :
    ∀ (es : List (Nat × Nat)), (∀ e ∈ es, e.2 < n) →
    ∀ (deg : List Nat), deg.length = n →
      (es.foldl (fun deg e => deg.set e.2 (deg.getD e.2 0 + 1)) deg).length = n ∧
      ∀ v, v < n →
        (es.foldl (fun deg e => deg.set e.2 (deg.getD e.2 0 + 1)) deg).getD v 0 =
          deg.getD v 0 + pendCount es [] v := by
  intro es
  induction es with
  | nil =>
      intro _ deg hlen
      exact ⟨hlen, fun v _ => by simp [pendCount]⟩
  | cons e es ih =>
      intro hwf deg hlen
      rw [List.foldl_cons]
      obtain ⟨ih1, ih2⟩ := ih (fun e' he' => hwf e' (List.mem_cons_of_mem e he'))
        (deg.set e.2 (deg.getD e.2 0 + 1)) (by rw [List.length_set]; exact hlen)
      refine ⟨ih1, fun v hv => ?_⟩
      rw [ih2 v hv, pendCount_cons]
      by_cases hev : e.2 = v
      · have hset : (deg.set e.2 (deg.getD e.2 0 + 1)).getD v 0 =
            deg.getD v 0 + 1 := by
          rw [← hev]
          exact getD_nat_set_self _
            (by rw [hlen]; exact (hwf e (List.mem_cons_self e es)))
        rw [hset, if_pos (show e.2 = v ∧ e.1 ∉ ([] : List Nat) from
          ⟨hev, List.not_mem_nil e.1⟩)]
        omega
      · have hset : (deg.set e.2 (deg.getD e.2 0 + 1)).getD v 0 =
            deg.getD v 0 := getD_nat_set_other _ _ (fun hh => hev hh.symm)
        rw [hset, if_neg (fun hh => hev hh.1)]
        omega

theorem initInDegree_spec (edges : List (Nat × Nat)) (n : Nat)
    (hwf : ∀ e ∈ edges, e.2 < n) :
    (initInDegree edges n).length = n ∧
    ∀ v, v < n → (initInDegree edges n).getD v 0 = pendCount edges [] v := by
  obtain ⟨h1, h2⟩ := initInDegree_go n edges hwf (List.replicate n 0) (by simp)
  refine ⟨h1, fun v hv => ?_⟩
  have h3 := h2 v hv
  rw [getD_replicate_zero] at h3
  simpa [initInDegree] using h3

/-- C5 (confirmed): on every well-formed acyclic circuit DAG,
`topological_sort` lists every node exactly once (it is duplicate-free and
contains exactly the node indices), and for every edge `(f, t)`, `f`
precedes `t` in the returned order. -/
theorem topological_sort_spec (dag : CircuitDag) (hwf : dag.WellFormed)
    (hacyc : Acyclic dag.edges) :
    dag.topological_sort.Nodup ∧
    (∀ v, v ∈ dag.topological_sort ↔ v < dag.nodes.length) ∧
    ∀ e ∈ dag.edges, e.1 ∈ dag.topological_sort ∧ e.2 ∈ dag.topological_sort ∧
      dag.topological_sort.indexOf e.1 < dag.topological_sort.indexOf e.2 := by
  obtain ⟨hilen, hideg⟩ := initInDegree_spec dag.edges dag.nodes.length
    (fun e he => (hwf e he).2)
  have hinv : KahnInv dag.edges dag.nodes.length
      (((List.range dag.nodes.length).filter
        (fun i => (initInDegree dag.edges dag.nodes.length).getD i 0 == 0)).reverse)
      (List.replicate dag.nodes.length false)
      (initInDegree dag.edges dag.nodes.length) [] := by
    refine ⟨by simp, hilen, List.nodup_nil, by simp, ?_, ?_, ?_, ?_, ?_, by simp, ?_⟩
    · intro u _
      rw [getD_replicate_false]
      simp
    · intro v hv
      exact hideg v hv
    · rw [List.nodup_reverse]
      exact (List.nodup_range _).filter _
    · intro u hu
      rw [List.mem_reverse, List.mem_filter, List.mem_range] at hu
      exact ⟨hu.1, by simpa using hu.2, List.not_mem_nil u⟩
    · intro v hv hvr hvd
      rw [List.mem_reverse, List.mem_filter, List.mem_range]
      exact ⟨hv, by rw [beq_iff_eq]; exact hvd⟩
    · intro e _ he2
      exact absurd he2 (List.not_mem_nil _)
  have hbudget : kahnB dag.nodes.length
      (((List.range dag.nodes.length).filter
        (fun i => (initInDegree dag.edges dag.nodes.length).getD i 0 == 0)).reverse)
      (List.replicate dag.nodes.length false) ≤ 2 * dag.nodes.length + 1 := by
    unfold kahnB
    have h1 : (((List.range dag.nodes.length).filter
        (fun i => (initInDegree dag.edges dag.nodes.length).getD i 0 == 0)).reverse).length ≤
        dag.nodes.length := by
      rw [List.length_reverse]
      calc ((List.range dag.nodes.length).filter _).length
          ≤ (List.range dag.nodes.length).length := List.length_filter_le _ _
        _ = dag.nodes.length := List.length_range _
    have h2 : ((Finset.range dag.nodes.length).filter
        (fun v => (List.replicate dag.nodes.length false).getD v false = false ∧
          v ∉ ((List.range dag.nodes.length).filter
            (fun i => (initInDegree dag.edges dag.nodes.length).getD i 0 == 0)).reverse)).card ≤
        dag.nodes.length :=
      le_trans (Finset.card_filter_le _ _) (by simp)
    omega
  exact topoLoop_final dag.edges dag.nodes.length hwf hacyc
    (2 * dag.nodes.length + 1) _ _ _ _ hinv hbudget

/-- The two-node chain has no directed cycle: its only edge is `(0, 1)`. -/
theorem chainDag_acyclic : Acyclic chainDag.edges := by
  intro v hv
  have hedges : chainDag.edges = [(0, 1)] := by decide
  have hab : ∀ a b : Nat, Relation.TransGen (EdgeStep chainDag.edges) a b →
      a = 0 ∧ b = 1 := by
    intro a b h
    induction h with
    | single hs =>
        have hs' : (_, _) ∈ chainDag.edges := hs
        rw [hedges] at hs'
        simpa using hs'
    | tail hab2 hbc ihab =>
        have hbc' : (_, _) ∈ chainDag.edges := hbc
        rw [hedges] at hbc'
        simp at hbc'
        have h1 := ihab.2
        rw [hbc'.1] at h1
        exact absurd h1 (by decide)
  obtain ⟨h0, h1⟩ := hab v v hv
  rw [h0] at h1
  exact absurd h1 (by decide)

/-- Witness for C5 at a concrete input: the two-node chain. -/
theorem topological_sort_spec_witness :
    chainDag.topological_sort.Nodup ∧
    (∀ v, v ∈ chainDag.topological_sort ↔ v < chainDag.nodes.length) ∧
    ∀ e ∈ chainDag.edges, e.1 ∈ chainDag.topological_sort ∧
      e.2 ∈ chainDag.topological_sort ∧
      chainDag.topological_sort.indexOf e.1 < chainDag.topological_sort.indexOf e.2 :=
  topological_sort_spec chainDag
    (by unfold CircuitDag.WellFormed; decide) chainDag_acyclic

/-! ## Jobs and the scheduler (`job.rs`) -/

/-- `job.rs::Priority` (derived `Ord`: `Low < Normal < High < Urgent`). -/
inductive Priority where
  | Low
  | Normal
  | High
  | Urgent
deriving DecidableEq

/-- The discriminant of `Priority` (`Priority::to_u8`); the derived `Ord`
compares discriminants. -/
def Priority.toNat : Priority → Nat
  | .Low => 0
  | .Normal => 1
  | .High => 2
  | .Urgent => 3

/-- `job.rs::JobStatus`. -/
inductive JobStatus where
  | Pending
  | Queued
  | Ready
  | Running
  | Completed
  | Failed
  | Cancelled
  | Waiting
deriving DecidableEq

/-- `JobStatus::is_terminal`. -/
def JobStatus.is_terminal : JobStatus → Bool
  | .Completed | .Failed | .Cancelled => true
  | _ => false

/-- `job.rs::JobMetadata` (string map as a function). -/
structure JobMetadata where
  user_id : Option String
  project : Option String
  experiment_name : Option String
  custom : String → Option String

def JobMetadata.new : JobMetadata :=
  { user_id := none, project := none, experiment_name := none,
    custom := fun _ => none }

/-- `job.rs::JobResult` (hash maps as functions; the `f64` probabilities
are carried opaquely as `Float`). -/
structure JobResult where
  job_id : Nat
  status : JobStatus
  counts : LogicalQubitId → Option (List Nat)
  statistics : LogicalQubitId → Option Float
  execution_time_ms : Option Nat
  error : Option String
  backend_data : Option String

/-- `JobResult::success`. -/
def JobResult.success (job_id : Nat) : JobResult :=
  { job_id := job_id, status := .Completed, counts := fun _ => none,
    statistics := fun _ => none, execution_time_ms := none, error := none,
    backend_data := none }

/-- `JobResult::failure`. -/
def JobResult.failure (job_id : Nat) (error : String) : JobResult :=
  { job_id := job_id, status := .Failed, counts := fun _ => none,
    statistics := fun _ => none, execution_time_ms := none,
    error := some error, backend_data := none }

/-- The system clock (`current_timestamp`), abstracted as a constant; no
claim observes timestamps. -/
def current_timestamp : Nat := 0

/-- `job.rs::Job`. -/
structure Job where
  id : Nat
  circuit : CircuitDag
  shots : Nat
  priority : Priority
  target_backend : String
  status : JobStatus
  metadata : JobMetadata
  created_at : Nat
  submitted_at : Option Nat
  started_at : Option Nat
  completed_at : Option Nat
  depends_on : List Nat
  allocated_qubits : List LogicalQubitId

/-- `Job::new`; the process-wide atomic counter of `Job::generate_id` is
passed in explicitly as `id`. -/
def Job.new (id : Nat) (circuit : CircuitDag) (shots : Nat)
    (target_backend : String) : Job :=
  { id := id, circuit := circuit, shots := shots, priority := .Normal,
    target_backend := target_backend, status := .Pending,
    metadata := JobMetadata.new, created_at := current_timestamp,
    submitted_at := none, started_at := none, completed_at := none,
    depends_on := [], allocated_qubits := circuit.all_qubits }

def Job.with_priority (j : Job) (priority : Priority) : Job :=
  { j with priority := priority }

def Job.with_metadata (j : Job) (metadata : JobMetadata) : Job :=
  { j with metadata := metadata }

/-- `Job::set_status`: set the status and stamp the matching timestamp. -/
def Job.set_status (j : Job) (status : JobStatus) : Job :=
  let j2 := { j with status := status }
  match status with
  | .Queued => { j2 with submitted_at := some current_timestamp }
  | .Running => { j2 with started_at := some current_timestamp }
  | .Completed | .Failed | .Cancelled =>
      { j2 with completed_at := some current_timestamp }
  | _ => j2

/-- `job.rs::JobQueue` (a `VecDeque` ordered by priority). -/
structure JobQueue where
  jobs : List Job

def JobQueue.new : JobQueue := ⟨[]⟩

/-- The insertion of `JobQueue::push`: immediately before the first job of
strictly lower priority (FIFO among equal priorities). -/
def insertByPriority (jobs : List Job) (job : Job) : List Job :=
  match jobs with
  | [] => [job]
  | j :: rest =>
      if j.priority.toNat < job.priority.toNat then job :: j :: rest
      else j :: insertByPriority rest job

def JobQueue.push (q : JobQueue) (job : Job) : JobQueue :=
  ⟨insertByPriority q.jobs job⟩

/-- `job.rs::SchedulerStats` (`u64` counters as `Nat`). -/
structure SchedulerStats where
  total_submitted : Nat
  total_completed : Nat
  total_failed : Nat
  total_cancelled : Nat
  current_queue_depth : Nat

def SchedulerStats.new : SchedulerStats :=
  { total_submitted := 0, total_completed := 0, total_failed := 0,
    total_cancelled := 0, current_queue_depth := 0 }

/-- `job.rs::JobScheduler`. `running` is an association list because the
source calls `.len()` on the hash map; `completed` and `available_qubits`
are function-valued maps. -/
structure JobScheduler where
  queue : JobQueue
  running : List (Nat × Job)
  completed : Nat → Option JobResult
  available_qubits : LogicalQubitId → Bool
  max_concurrent_jobs : Nat
  stats : SchedulerStats

/-- `JobScheduler::new`. -/
def JobScheduler.new (max_concurrent_jobs : Nat) : JobScheduler :=
  { queue := JobQueue.new, running := [], completed := fun _ => none,
    available_qubits := fun _ => false,
    max_concurrent_jobs := max_concurrent_jobs, stats := SchedulerStats.new }

/-- `JobScheduler::with_qubits`. -/
def JobScheduler.with_qubits (s : JobScheduler)
    (qubits : List LogicalQubitId) : JobScheduler :=
  { s with available_qubits := fun q => decide (q ∈ qubits) }

/-- `JobScheduler::submit`. -/
def JobScheduler.submit (s : JobScheduler) (job : Job) : Nat × JobScheduler :=
  let job_id := job.id
  let job2 := job.set_status .Queued
  let stats1 := { s.stats with total_submitted := s.stats.total_submitted + 1 }
  let queue2 := s.queue.push job2
  (job_id,
    { s with
        queue := queue2,
        stats := { stats1 with current_queue_depth := queue2.jobs.length } })

/-- `JobScheduler::can_schedule`: all dependencies completed and all
allocated qubits available. -/
def JobScheduler.can_schedule (s : JobScheduler) (job : Job) : Bool :=
  job.depends_on.all (fun dep => (s.completed dep).isSome) &&
    job.allocated_qubits.all (fun q => s.available_qubits q)

/-- The candidate scan of `schedule_next`: queue positions (counting from
`start`) of the jobs that can be scheduled, in queue order. -/
def candidatesFrom (s : JobScheduler) (start : Nat) : List Job → List Nat
  | [] => []
  | j :: rest =>
      if s.can_schedule j then start :: candidatesFrom s (start + 1) rest
      else candidatesFrom s (start + 1) rest

/-- Rust's `Iterator::max_by_key`: when several elements share the maximal
key, the last one is returned. -/
def maxByKeyLast (key : Nat → Nat) : Nat → List Nat → Nat
  | m, [] => m
  | m, x :: xs => maxByKeyLast key (if key x < key m then m else x) xs

/-- The key of the `max_by_key` call in `schedule_next`: the priority of
the queued job at position `i` (as its `Ord` discriminant). -/
def scheduleKey (s : JobScheduler) (i : Nat) : Nat :=
  (((s.queue.jobs.get? i).map Job.priority).getD .Low).toNat

/-- `for q in allocated: available.remove(q)`. -/
def removeQubits (qs : List LogicalQubitId) (av : LogicalQubitId → Bool) :
    LogicalQubitId → Bool :=
  qs.foldl (fun av q => fun q2 => if q2 = q then false else av q2) av

/-- `for q in allocated: available.insert(q)`. -/
def restoreQubits (qs : List LogicalQubitId) (av : LogicalQubitId → Bool) :
    LogicalQubitId → Bool :=
  qs.foldl (fun av q => fun q2 => if q2 = q then true else av q2) av

/-- `JobScheduler::schedule_next`: refuse at the concurrency cap, collect
schedulable queue positions, pick `max_by_key` on priority, remove that job
from the queue, mark it `Ready`, deduct its qubits and return it. The
returned job is NOT inserted into `running` (the source has no such
insertion). The `none` arm of the inner `get?` is unreachable (candidates
are valid positions; Rust indexes unchecked there). -/
def JobScheduler.schedule_next (s : JobScheduler) :
    Option Job × JobScheduler :=
  if s.max_concurrent_jobs ≤ s.running.length then (none, s)
  else
    match candidatesFrom s 0 s.queue.jobs with
    | [] => (none, s)
    | c :: cs =>
        match s.queue.jobs.get? (maxByKeyLast (scheduleKey s) c cs) with
        | none => (none, s)
        | some job =>
            (some (job.set_status .Ready),
              { s with
                  queue := ⟨s.queue.jobs.eraseIdx (maxByKeyLast (scheduleKey s) c cs)⟩,
                  available_qubits :=
                    removeQubits (job.set_status .Ready).allocated_qubits
                      s.available_qubits,
                  stats := { s.stats with current_queue_depth :=
                    (s.queue.jobs.eraseIdx (maxByKeyLast (scheduleKey s) c cs)).length } })

/-- `HashMap::get` on the association list. -/
def lookupRunning (running : List (Nat × Job)) (job_id : Nat) : Option Job :=
  (running.find? (fun p => p.1 == job_id)).map (fun p => p.2)

/-- `HashMap::remove` on the association list. -/
def eraseKey (running : List (Nat × Job)) (job_id : Nat) : List (Nat × Job) :=
  match running with
  | [] => []
  | p :: rest => if p.1 = job_id then rest else p :: eraseKey rest job_id

/-- `JobScheduler::complete`: only a job found in `running` is removed,
releases its qubits, bumps the completed/failed counter and stores the
result; otherwise the call does nothing. -/
def JobScheduler.complete (s : JobScheduler) (job_id : Nat)
    (result : JobResult) : JobScheduler :=
  match lookupRunning s.running job_id with
  | none => s
  | some job =>
      { s with
          running := eraseKey s.running job_id,
          available_qubits :=
            restoreQubits job.allocated_qubits s.available_qubits,
          stats :=
            if result.status = .Completed then
              { s.stats with total_completed := s.stats.total_completed + 1 }
            else { s.stats with total_failed := s.stats.total_failed + 1 },
          completed := fun id =>
            if id = job_id then some result else s.completed id }

/-- `JobQueue::remove`: find the first job with the given id and remove it
(`position` + `remove`). -/
def removeById (jobs : List Job) (job_id : Nat) : Option Job × List Job :=
  match jobs with
  | [] => (none, [])
  | j :: rest =>
      if j.id = job_id then (some j, rest)
      else
        ((removeById rest job_id).1, j :: (removeById rest job_id).2)

/-- `JobScheduler::cancel`: cancel out of the queue, or out of `running`
(restoring qubits); unknown ids return `false`. -/
def JobScheduler.cancel (s : JobScheduler) (job_id : Nat) :
    Bool × JobScheduler :=
  match (removeById s.queue.jobs job_id).1 with
  | some _ =>
      (true,
        { s with
            queue := ⟨(removeById s.queue.jobs job_id).2⟩,
            stats := { s.stats with
              total_cancelled := s.stats.total_cancelled + 1 } })
  | none =>
      match lookupRunning s.running job_id with
      | some job =>
          (true,
            { s with
                running := eraseKey s.running job_id,
                available_qubits :=
                  restoreQubits job.allocated_qubits s.available_qubits,
                stats := { s.stats with
                  total_cancelled := s.stats.total_cancelled + 1 } })
      | none => (false, s)

/-- `JobScheduler::get_result`. -/
def JobScheduler.get_result (s : JobScheduler) (job_id : Nat) :
    Option JobResult :=
  s.completed job_id

/-- `JobScheduler::queue_length`. -/
def JobScheduler.queue_length (s : JobScheduler) : Nat :=
  s.queue.jobs.length

/-! ### Scheduler call traces and the conservation law -/

/-- One public scheduler call. -/
inductive SchedOp where
  | submit (job : Job)
  | scheduleNext
  | complete (job_id : Nat) (result : JobResult)
  | cancel (job_id : Nat)

/-- Run a trace of scheduler calls; the second component counts the jobs
handed out by successful `schedule_next` calls. -/
def runSched : JobScheduler → List SchedOp → JobScheduler × Nat
  | s, [] => (s, 0)
  | s, .submit job :: rest => runSched (s.submit job).2 rest
  | s, .scheduleNext :: rest =>
      ((runSched (s.schedule_next).2 rest).1,
        (runSched (s.schedule_next).2 rest).2 +
          (if (s.schedule_next).1.isSome then 1 else 0))
  | s, .complete job_id result :: rest => runSched (s.complete job_id result) rest
  | s, .cancel job_id :: rest => runSched (s.cancel job_id).2 rest

/-- The conservation ledger, with an explicit term for dispatched jobs. -/
def Conserved (s : JobScheduler) (dispatched : Nat) : Prop :=
  s.stats.total_submitted = s.queue_length + s.running.length +
    s.stats.total_completed + s.stats.total_failed +
    s.stats.total_cancelled + dispatched

theorem insertByPriority_length (jobs : List Job) (job : Job) :
    (insertByPriority jobs job).length = jobs.length + 1 := by
  induction jobs with
  | nil => rfl
  | cons j rest ih =>
      rw [insertByPriority]
      by_cases h : j.priority.toNat < job.priority.toNat
      · rw [if_pos h]; rfl
      · rw [if_neg h]
        simp only [List.length_cons, ih]

theorem eraseKey_length : ∀ (running : List (Nat × Job)) (job_id : Nat),
    (lookupRunning running job_id).isSome = true →
    (eraseKey running job_id).length + 1 = running.length := by
  intro running job_id
  induction running with
  | nil => intro h; simp [lookupRunning] at h
  | cons p rest ih =>
      intro h
      by_cases hp : p.1 = job_id
      · rw [eraseKey, if_pos hp]; rfl
      · rw [eraseKey, if_neg hp]
        have h2 : (lookupRunning rest job_id).isSome = true := by
          rw [lookupRunning] at h ⊢
          rw [List.find?_cons_of_neg _ (by simpa using hp)] at h
          exact h
        simp only [List.length_cons, ih h2]

theorem removeById_length : ∀ (jobs : List Job) (job_id : Nat) (j : Job),
    (removeById jobs job_id).1 = some j →
    ((removeById jobs job_id).2).length + 1 = jobs.length := by
  intro jobs job_id
  induction jobs with
  | nil => intro j h; simp [removeById] at h
  | cons a rest ih =>
      intro j h
      by_cases ha : a.id = job_id
      · rw [removeById, if_pos ha]; rfl
      · rw [removeById, if_neg ha] at h ⊢
        simp only [List.length_cons, ih j h]

theorem submit_conserved (s : JobScheduler) (job : Job) (d : Nat)
    (h : Conserved s d) : Conserved (s.submit job).2 d := by
  unfold Conserved JobScheduler.queue_length at h ⊢
  unfold JobScheduler.submit JobQueue.push
  simp only [insertByPriority_length]
  omega

theorem schedule_next_conserved (s : JobScheduler) (d : Nat)
    (h : Conserved s d) :
    Conserved (s.schedule_next).2
      (d + if (s.schedule_next).1.isSome then 1 else 0) := by
  by_cases hrun : s.max_concurrent_jobs ≤ s.running.length
  · have hE : s.schedule_next = (none, s) := by
      unfold JobScheduler.schedule_next
      rw [if_pos hrun]
    rw [hE]
    unfold Conserved JobScheduler.queue_length at h ⊢
    simp
    omega
  · cases hcand : candidatesFrom s 0 s.queue.jobs with
    | nil =>
        have hE : s.schedule_next = (none, s) := by
          unfold JobScheduler.schedule_next
          rw [if_neg hrun, hcand]
        rw [hE]
        unfold Conserved JobScheduler.queue_length at h ⊢
        simp
        omega
    | cons c cs =>
        cases hget : s.queue.jobs.get? (maxByKeyLast (scheduleKey s) c cs) with
        | none =>
            have hE : s.schedule_next = (none, s) := by
              unfold JobScheduler.schedule_next
              rw [if_neg hrun]
              simp only [hcand, hget]
            rw [hE]
            unfold Conserved JobScheduler.queue_length at h ⊢
            simp
            omega
        | some job =>
            have hE : s.schedule_next =
                (some (job.set_status .Ready),
                  { s with
                      queue := ⟨s.queue.jobs.eraseIdx
                        (maxByKeyLast (scheduleKey s) c cs)⟩,
                      available_qubits :=
                        removeQubits (job.set_status .Ready).allocated_qubits
                          s.available_qubits,
                      stats := { s.stats with current_queue_depth :=
                        (s.queue.jobs.eraseIdx
                          (maxByKeyLast (scheduleKey s) c cs)).length } }) := by
              unfold JobScheduler.schedule_next
              rw [if_neg hrun]
              simp only [hcand, hget]
            have hlt : maxByKeyLast (scheduleKey s) c cs < s.queue.jobs.length := by
              rw [List.get?_eq_getElem?] at hget
              exact (List.getElem?_eq_some.mp hget).1
            rw [hE]
            unfold Conserved JobScheduler.queue_length at h ⊢
            simp only [Option.isSome_some, if_true]
            rw [List.length_eraseIdx, if_pos hlt]
            omega

theorem complete_conserved (s : JobScheduler) (job_id : Nat)
    (result : JobResult) (d : Nat) (h : Conserved s d) :
    Conserved (s.complete job_id result) d := by
  cases hl : lookupRunning s.running job_id with
  | none =>
      have hE : s.complete job_id result = s := by
        unfold JobScheduler.complete
        rw [hl]
      rw [hE]
      exact h
  | some job =>
      have hlen := eraseKey_length s.running job_id (by rw [hl]; rfl)
      by_cases hres : result.status = .Completed
      · have hE : s.complete job_id result =
            { s with
                running := eraseKey s.running job_id,
                available_qubits :=
                  restoreQubits job.allocated_qubits s.available_qubits,
                stats := { s.stats with
                  total_completed := s.stats.total_completed + 1 },
                completed := fun id =>
                  if id = job_id then some result else s.completed id } := by
          unfold JobScheduler.complete
          rw [hl, if_pos hres]
        rw [hE]
        unfold Conserved JobScheduler.queue_length at h ⊢
        simp only []
        omega
      · have hE : s.complete job_id result =
            { s with
                running := eraseKey s.running job_id,
                available_qubits :=
                  restoreQubits job.allocated_qubits s.available_qubits,
                stats := { s.stats with
                  total_failed := s.stats.total_failed + 1 },
                completed := fun id =>
                  if id = job_id then some result else s.completed id } := by
          unfold JobScheduler.complete
          rw [hl, if_neg hres]
        rw [hE]
        unfold Conserved JobScheduler.queue_length at h ⊢
        simp only []
        omega

theorem cancel_conserved (s : JobScheduler) (job_id : Nat) (d : Nat)
    (h : Conserved s d) : Conserved (s.cancel job_id).2 d := by
  cases hq : (removeById s.queue.jobs job_id).1 with
  | some j =>
      have hlen := removeById_length s.queue.jobs job_id j hq
      have hE : s.cancel job_id =
          (true,
            { s with
                queue := ⟨(removeById s.queue.jobs job_id).2⟩,
                stats := { s.stats with
                  total_cancelled := s.stats.total_cancelled + 1 } }) := by
        unfold JobScheduler.cancel
        rw [hq]
      rw [hE]
      unfold Conserved JobScheduler.queue_length at h ⊢
      simp only []
      omega
  | none =>
      cases hl : lookupRunning s.running job_id with
      | some job =>
          have hlen := eraseKey_length s.running job_id (by rw [hl]; rfl)
          have hE : s.cancel job_id =
              (true,
                { s with
                    running := eraseKey s.running job_id,
                    available_qubits :=
                      restoreQubits job.allocated_qubits s.available_qubits,
                    stats := { s.stats with
                      total_cancelled := s.stats.total_cancelled + 1 } }) := by
            unfold JobScheduler.cancel
            rw [hq, hl]
          rw [hE]
          unfold Conserved JobScheduler.queue_length at h ⊢
          simp only []
          omega
      | none =>
          have hE : s.cancel job_id = (false, s) := by
            unfold JobScheduler.cancel
            rw [hq, hl]
          rw [hE]
          exact h

/-- C3 (amended): along every trace of public calls from a freshly
constructed scheduler, `total_submitted` equals `queue_length + |running|
+ total_completed + total_failed + total_cancelled` **plus the number of
jobs handed out by successful `schedule_next` calls**: `schedule_next`
removes the job it returns from the queue but never inserts it into
`running`, so it leaves the original ledger permanently. -/
theorem scheduler_conservation (ops : List SchedOp) (max_jobs : Nat)
    (qubits : List LogicalQubitId) :
    Conserved (runSched ((JobScheduler.new max_jobs).with_qubits qubits) ops).1
      ((runSched ((JobScheduler.new max_jobs).with_qubits qubits) ops).2) := by
  have grow : ∀ (ops : List SchedOp) (s : JobScheduler) (d : Nat),
      Conserved s d → Conserved (runSched s ops).1 ((runSched s ops).2 + d) := by
    intro ops
    induction ops with
    | nil => intro s d h; simpa [runSched] using h
    | cons op rest ih =>
        intro s d h
        cases op with
        | submit job =>
            exact ih (s.submit job).2 d (submit_conserved s job d h)
        | scheduleNext =>
            have h2 := ih (s.schedule_next).2
              (d + if (s.schedule_next).1.isSome then 1 else 0)
              (schedule_next_conserved s d h)
            unfold Conserved at h2 ⊢
            simp only [runSched]
            omega
        | complete job_id result =>
            exact ih (s.complete job_id result) d
              (complete_conserved s job_id result d h)
        | cancel job_id =>
            exact ih (s.cancel job_id).2 d (cancel_conserved s job_id d h)
  have hinit : Conserved ((JobScheduler.new max_jobs).with_qubits qubits) 0 := by
    unfold Conserved JobScheduler.queue_length JobScheduler.new
    rfl
  have := grow ops ((JobScheduler.new max_jobs).with_qubits qubits) 0 hinit
  simpa using this

/-- A concrete job over the empty circuit (no dependencies, no qubits). -/
def cjob (id : Nat) : Job := Job.new id CircuitDag.new 100 "sim"

/-- C3 (counterexample): after `submit` + `schedule_next` from a fresh
scheduler, `total_submitted = 1` while the claimed right-hand side
(without the dispatch term) is `0`: the scheduled job is in neither the
queue nor `running`. -/
theorem scheduler_conservation_counterexample :
    ((runSched ((JobScheduler.new 4).with_qubits [])
        [.submit (cjob 1), .scheduleNext]).1.stats.total_submitted = 1) ∧
    ((runSched ((JobScheduler.new 4).with_qubits [])
        [.submit (cjob 1), .scheduleNext]).1.queue_length +
      (runSched ((JobScheduler.new 4).with_qubits [])
        [.submit (cjob 1), .scheduleNext]).1.running.length +
      (runSched ((JobScheduler.new 4).with_qubits [])
        [.submit (cjob 1), .scheduleNext]).1.stats.total_completed +
      (runSched ((JobScheduler.new 4).with_qubits [])
        [.submit (cjob 1), .scheduleNext]).1.stats.total_failed +
      (runSched ((JobScheduler.new 4).with_qubits [])
        [.submit (cjob 1), .scheduleNext]).1.stats.total_cancelled = 0) := by
  refine ⟨by decide, by decide⟩

/-- C1 (code bug): evaluating the code at the failing input. On the chain
`0 ⟶ 1`, `compute_parallel_groups` caches `groups.len() = 1` into
`cached_depth`, after which `depth()` serves the stale `1`; recomputing
with an empty cache yields `2`, the critical-path value the recurrence
`depth(n) = 1 + max depth(p)` gives (`depth(0) = 1`, `depth(1) = 2`). So a
reachable state has `cached_depth` present but different from the depth
recomputed from scratch. -/
theorem depth_cached_divergence :
    ((chainDag.compute_parallel_groups).2).cached_depth = some 1 ∧
    (((chainDag.compute_parallel_groups).2).depth).1 = 1 ∧
    (({ (chainDag.compute_parallel_groups).2 with cached_depth := none }).depth).1 = 2 ∧
    (chainDag.depth).1 = 2 := by
  refine ⟨by decide, by decide, by decide, by decide⟩

/-- C2 (code bug): evaluating the code at the failing input. On the chain
`0 ⟶ 1` (an acyclic DAG), `compute_parallel_groups` computes
`level = max(level(pred))` without the `+ 1` of the specified recurrence,
so both endpoints of the edge `(0, 1)` land in layer 0: the layer of the
predecessor is not strictly below the layer of the successor, and node 1's
layer is not `1 + ` the layer of node 0. The groups also contradict the
code's own `can_parallel`, which rejects the dependent pair that
`parallel_with` now advertises as parallel. -/
theorem compute_parallel_groups_divergence :
    (chainDag.compute_parallel_groups).1 = [[0, 1]] ∧
    chainDag.edges = [(0, 1)] ∧
    chainDag.can_parallel 0 1 = false ∧
    (((chainDag.compute_parallel_groups).2).nodes.map OperationNode.parallel_with)
        = [[1], [0]] := by
  refine ⟨by decide, by decide, by decide, by decide⟩

/-! ### C4: which job `schedule_next` returns -/

/-- The candidate scan: `i` is listed exactly when it is a queue position
(counted from `start`) holding a schedulable job. -/
theorem mem_candidatesFrom (s : JobScheduler) :
    ∀ (jobs : List Job) (start i : Nat),
      i ∈ candidatesFrom s start jobs ↔
        ∃ k j2, i = start + k ∧ jobs.get? k = some j2 ∧
          s.can_schedule j2 = true := by
  intro jobs
  induction jobs with
  | nil =>
      intro start i
      constructor
      · intro h; cases h
      · rintro ⟨k, j2, _, hj2, _⟩
        rw [List.get?_eq_getElem?] at hj2
        simp at hj2
  | cons j rest ih =>
      intro start i
      by_cases hc : s.can_schedule j = true
      · rw [candidatesFrom, if_pos hc]
        constructor
        · intro h
          rcases List.mem_cons.mp h with h0 | h1
          · exact ⟨0, j, by omega, rfl, hc⟩
          · rcases (ih (start + 1) i).mp h1 with ⟨k, j2, hk, hj2, hcs⟩
            exact ⟨k + 1, j2, by omega, hj2, hcs⟩
        · rintro ⟨k, j2, hk, hj2, hcs⟩
          cases k with
          | zero =>
              have : i = start := by omega
              rw [this]
              exact List.mem_cons_self _ _
          | succ k =>
              exact List.mem_cons_of_mem _
                ((ih (start + 1) i).mpr ⟨k, j2, by omega, hj2, hcs⟩)
      · rw [candidatesFrom, if_neg hc]
        rw [ih (start + 1) i]
        constructor
        · rintro ⟨k, j2, hk, hj2, hcs⟩
          exact ⟨k + 1, j2, by omega, hj2, hcs⟩
        · rintro ⟨k, j2, hk, hj2, hcs⟩
          cases k with
          | zero =>
              exfalso
              have : j = j2 := Option.some.inj hj2
              rw [← this] at hcs
              exact hc hcs
          | succ k => exact ⟨k, j2, by omega, hj2, hcs⟩

/-- Every candidate position is at least `start`. -/
theorem candidatesFrom_le (s : JobScheduler) (jobs : List Job)
    (start i : Nat) (h : i ∈ candidatesFrom s start jobs) : start ≤ i := by
  rcases (mem_candidatesFrom s jobs start i).mp h with ⟨k, _, hk, _, _⟩
  omega

/-- The candidate positions are listed in strictly increasing order. -/
theorem candidatesFrom_pairwise (s : JobScheduler) :
    ∀ (jobs : List Job) (start : Nat),
      (candidatesFrom s start jobs).Pairwise (· < ·) := by
  intro jobs
  induction jobs with
  | nil => intro start; exact List.Pairwise.nil
  | cons j rest ih =>
      intro start
      by_cases hc : s.can_schedule j = true
      · rw [candidatesFrom, if_pos hc]
        refine List.Pairwise.cons ?_ (ih (start + 1))
        intro b hb
        have := candidatesFrom_le s rest (start + 1) b hb
        omega
      · rw [candidatesFrom, if_neg hc]
        exact ih (start + 1)

/-- `Iterator::max_by_key` over a strictly increasing list: the result is
an element of maximal key, and among the elements sharing that maximal key
it is the LAST (largest) one. -/
theorem maxByKeyLast_spec (key : Nat → Nat) :
    ∀ (xs : List Nat) (m : Nat), List.Pairwise (· < ·) (m :: xs) →
      (maxByKeyLast key m xs = m ∨ maxByKeyLast key m xs ∈ xs) ∧
      (∀ x, (x = m ∨ x ∈ xs) → key x ≤ key (maxByKeyLast key m xs)) ∧
      (∀ x, (x = m ∨ x ∈ xs) → key x = key (maxByKeyLast key m xs) →
        x ≤ maxByKeyLast key m xs) := by
  intro xs
  induction xs with
  | nil =>
      intro m _
      refine ⟨Or.inl rfl, ?_, ?_⟩
      · rintro x (rfl | hx)
        · exact Nat.le_refl _
        · cases hx
      · rintro x (rfl | hx) _
        · exact Nat.le_refl _
        · cases hx
  | cons x xs ih =>
      intro m hpw
      have hmx : m < x :=
        (List.pairwise_cons.mp hpw).1 x (List.mem_cons_self x xs)
      have hpw1 : List.Pairwise (· < ·) (x :: xs) :=
        (List.pairwise_cons.mp hpw).2
      have hpwM : List.Pairwise (· < ·) (m :: xs) := by
        rcases List.pairwise_cons.mp hpw with ⟨h1, h2⟩
        rcases List.pairwise_cons.mp h2 with ⟨h3, h4⟩
        exact List.pairwise_cons.mpr
          ⟨fun b hb => h1 b (List.mem_cons_of_mem x hb), h4⟩
      rw [maxByKeyLast]
      by_cases hkey : key x < key m
      · rw [if_pos hkey]
        rcases ih m hpwM with ⟨hmem, hmax, htie⟩
        refine ⟨?_, ?_, ?_⟩
        · rcases hmem with h | h
          · exact Or.inl h
          · exact Or.inr (List.mem_cons_of_mem x h)
        · rintro y (rfl | hy)
          · exact hmax y (Or.inl rfl)
          · rcases List.mem_cons.mp hy with rfl | hy2
            · exact Nat.le_trans (Nat.le_of_lt hkey) (hmax m (Or.inl rfl))
            · exact hmax y (Or.inr hy2)
        · rintro y (rfl | hy) hkeq
          · exact htie y (Or.inl rfl) hkeq
          · rcases List.mem_cons.mp hy with rfl | hy2
            · have := hmax m (Or.inl rfl)
              omega
            · exact htie y (Or.inr hy2) hkeq
      · rw [if_neg hkey]
        have hkmx : key m ≤ key x := Nat.le_of_not_lt hkey
        rcases ih x hpw1 with ⟨hmem, hmax, htie⟩
        refine ⟨?_, ?_, ?_⟩
        · rcases hmem with h | h
          · exact Or.inr (List.mem_cons.mpr (Or.inl h))
          · exact Or.inr (List.mem_cons_of_mem x h)
        · rintro y (rfl | hy)
          · exact Nat.le_trans hkmx (hmax x (Or.inl rfl))
          · rcases List.mem_cons.mp hy with rfl | hy2
            · exact hmax y (Or.inl rfl)
            · exact hmax y (Or.inr hy2)
        · rintro y (rfl | hy) hkeq
          · have h1 := hmax x (Or.inl rfl)
            have h2 := htie x (Or.inl rfl) (by omega)
            omega
          · rcases List.mem_cons.mp hy with rfl | hy2
            · exact htie y (Or.inl rfl) hkeq
            · exact htie y (Or.inr hy2) hkeq

/-- The `max_by_key` key at an occupied queue position is the priority
discriminant of the job there. -/
theorem scheduleKey_eq (s : JobScheduler) (k : Nat) (j : Job)
    (h : s.queue.jobs.get? k = some j) :
    scheduleKey s k = j.priority.toNat := by
  unfold scheduleKey
  rw [h]
  rfl

/-- C4 (amended): when `schedule_next` returns a job, the job is the
`Ready`-stamped copy of a schedulable queued job whose priority is maximal
among all schedulable queued jobs; but among several schedulable jobs
sharing that maximal priority, the one LATEST in queue order is returned —
Rust `Iterator::max_by_key` keeps the last maximum, not the first, and
the code breaks ties by the largest queue position rather than the
claimed earliest. -/
theorem schedule_next_picks_last_max (s : JobScheduler) (j : Job)
    (h : (s.schedule_next).1 = some j) :
    ∃ i jq, s.queue.jobs.get? i = some jq ∧
      j = jq.set_status .Ready ∧ s.can_schedule jq = true ∧
      ∀ k jk, s.queue.jobs.get? k = some jk → s.can_schedule jk = true →
        jk.priority.toNat ≤ jq.priority.toNat ∧
        (jk.priority.toNat = jq.priority.toNat → k ≤ i) := by
  by_cases hrun : s.max_concurrent_jobs ≤ s.running.length
  · exfalso
    have hE : s.schedule_next = (none, s) := by
      unfold JobScheduler.schedule_next
      rw [if_pos hrun]
    rw [hE] at h
    exact Option.noConfusion h
  · cases hcand : candidatesFrom s 0 s.queue.jobs with
    | nil =>
        exfalso
        have hE : s.schedule_next = (none, s) := by
          unfold JobScheduler.schedule_next
          rw [if_neg hrun, hcand]
        rw [hE] at h
        exact Option.noConfusion h
    | cons c cs =>
        cases hget : s.queue.jobs.get? (maxByKeyLast (scheduleKey s) c cs) with
        | none =>
            exfalso
            have hE : s.schedule_next = (none, s) := by
              unfold JobScheduler.schedule_next
              rw [if_neg hrun]
              simp only [hcand, hget]
            rw [hE] at h
            exact Option.noConfusion h
        | some job =>
            have hE1 : (s.schedule_next).1 = some (job.set_status .Ready) := by
              unfold JobScheduler.schedule_next
              rw [if_neg hrun]
              simp only [hcand, hget]
            have hj : j = job.set_status .Ready := by
              rw [hE1] at h
              exact (Option.some.inj h).symm
            have hpw : List.Pairwise (· < ·) (c :: cs) := by
              have hp := candidatesFrom_pairwise s s.queue.jobs 0
              rw [hcand] at hp
              exact hp
            rcases maxByKeyLast_spec (scheduleKey s) cs c hpw with
              ⟨hmem, hmax, htie⟩
            have hmemC : maxByKeyLast (scheduleKey s) c cs ∈
                candidatesFrom s 0 s.queue.jobs := by
              rw [hcand]
              rcases hmem with h1 | h1
              · rw [h1]
                exact List.mem_cons_self _ _
              · exact List.mem_cons_of_mem _ h1
            rcases (mem_candidatesFrom s s.queue.jobs 0 _).mp hmemC with
              ⟨k0, j0, hk0, hj0, hcs0⟩
            have hk0e : k0 = maxByKeyLast (scheduleKey s) c cs := by omega
            rw [hk0e] at hj0
            have hj0e : j0 = job := by
              rw [hget] at hj0
              exact (Option.some.inj hj0).symm
            refine ⟨maxByKeyLast (scheduleKey s) c cs, job, hget, hj, ?_, ?_⟩
            · rw [← hj0e]
              exact hcs0
            · intro k jk hk hcsk
              have hkmem : k ∈ c :: cs := by
                rw [← hcand]
                exact (mem_candidatesFrom s s.queue.jobs 0 k).mpr
                  ⟨k, jk, by omega, hk, hcsk⟩
              have hkor : k = c ∨ k ∈ cs := List.mem_cons.mp hkmem
              have hkey1 : scheduleKey s k ≤
                  scheduleKey s (maxByKeyLast (scheduleKey s) c cs) :=
                hmax k hkor
              rw [scheduleKey_eq s k jk hk, scheduleKey_eq s _ job hget]
                at hkey1
              refine ⟨hkey1, ?_⟩
              intro heq
              have hkey2 : scheduleKey s k =
                  scheduleKey s (maxByKeyLast (scheduleKey s) c cs) := by
                rw [scheduleKey_eq s k jk hk, scheduleKey_eq s _ job hget]
                exact heq
              exact htie k hkor hkey2

/-- The scheduler used to witness the `schedule_next` characterization: one
submitted job over the empty circuit. -/
def wsched : JobScheduler := ((JobScheduler.new 4).submit (cjob 1)).2

/-- The job `wsched.schedule_next` hands out. -/
def wjobReady : Job := ((cjob 1).set_status .Queued).set_status .Ready

/-- Witness: on `wsched`, `schedule_next` returns `wjobReady`, and the
characterization holds there. -/
theorem schedule_next_picks_last_max_witness :
    ∃ i jq, wsched.queue.jobs.get? i = some jq ∧
      wjobReady = jq.set_status .Ready ∧ wsched.can_schedule jq = true ∧
      ∀ k jk, wsched.queue.jobs.get? k = some jk →
        wsched.can_schedule jk = true →
        jk.priority.toNat ≤ jq.priority.toNat ∧
        (jk.priority.toNat = jq.priority.toNat → k ≤ i) :=
  schedule_next_picks_last_max wsched wjobReady rfl

/-- Two equal-priority schedulable jobs, submitted in id order. -/
def tsched : JobScheduler :=
  ((((JobScheduler.new 4).submit (cjob 1)).2).submit (cjob 2)).2

/-- C4 (counterexample): the queue holds the schedulable jobs `1` and `2`
in that order, both of priority `Normal`; the claim says the EARLIEST of
the tied maxima (job `1`) is returned, but `schedule_next` returns job
`2` — `max_by_key` keeps the last maximum. -/
theorem schedule_next_picks_last_max_counterexample :
    tsched.queue.jobs.map Job.id = [1, 2] ∧
    tsched.queue.jobs.map (fun j => j.priority.toNat) = [1, 1] ∧
    tsched.queue.jobs.map (fun j => tsched.can_schedule j) = [true, true] ∧
    ((tsched.schedule_next).1.map Job.id) = some 2 :=
  ⟨rfl, rfl, rfl, rfl⟩


/-! ## Runtime (`runtime.rs`) -/

/-- `runtime.rs::RuntimeConfig`. -/
structure RuntimeConfig where
  max_concurrent_jobs : Nat
  default_backend : String
  job_timeout_secs : Nat
  verbose : Bool

/-- `RuntimeConfig::default`. -/
def RuntimeConfig.mkDefault : RuntimeConfig :=
  { max_concurrent_jobs := 4, default_backend := "default",
    job_timeout_secs := 300, verbose := false }

/-- A backend adapter, reduced to its `execute` method — the only trait
member `schedule_and_execute` invokes (name, capabilities, validation and
the async hooks play no part in any claim). -/
structure BackendAdapter where
  execute : Job → Except IrError JobResult

/-- `runtime.rs::RuntimeStats` (`u64` counters as `Nat`). -/
structure RuntimeStats where
  total_jobs_submitted : Nat
  total_jobs_completed : Nat
  total_jobs_failed : Nat
  total_execution_time_ms : Nat
  current_running_jobs : Nat

def RuntimeStats.mkDefault : RuntimeStats :=
  { total_jobs_submitted := 0, total_jobs_completed := 0,
    total_jobs_failed := 0, total_execution_time_ms := 0,
    current_running_jobs := 0 }

/-- The `Display` strings of `IrError` (`e.to_string()` in the failure
path of `schedule_and_execute`). -/
def IrError.message : IrError → String
  | .QubitNotFound msg => "Qubit not found: " ++ msg
  | .QubitAlreadyAllocated msg => "Qubit already allocated: " ++ msg
  | .InvalidOperation msg => "Invalid operation: " ++ msg
  | .UnsupportedOperation msg => "Unsupported operation: " ++ msg
  | .BackendUnavailable msg => "Backend unavailable: " ++ msg
  | .JobExecutionFailed msg => "Job execution failed: " ++ msg
  | .CyclicDependency msg => "Cyclic dependency detected: " ++ msg
  | .SchedulingConflict msg => "Scheduling conflict: " ++ msg
  | .Timeout msg => "Operation timeout: " ++ msg

/-- `runtime.rs::QuantumRuntime`; the `BackendRegistry` hash map is a
function-valued map. -/
structure QuantumRuntime where
  config : RuntimeConfig
  registry : String → Option BackendAdapter
  scheduler : JobScheduler
  stats : RuntimeStats
  running : Bool

/-- `QuantumRuntime::new`. -/
def QuantumRuntime.new (config : RuntimeConfig) : QuantumRuntime :=
  { config := config, registry := fun _ => none,
    scheduler := JobScheduler.new config.max_concurrent_jobs,
    stats := RuntimeStats.mkDefault, running := false }

/-- `QuantumRuntime::register_backend`. -/
def QuantumRuntime.register_backend (rt : QuantumRuntime) (id : String)
    (backend : BackendAdapter) : QuantumRuntime :=
  { rt with registry :=
      fun n => if n = id then some backend else rt.registry n }

/-- `QuantumRuntime::submit_job`. -/
def QuantumRuntime.submit_job (rt : QuantumRuntime) (job : Job) :
    Nat × QuantumRuntime :=
  (job.id,
    { rt with
        scheduler := (rt.scheduler.submit job).2,
        stats := { rt.stats with
          total_jobs_submitted := rt.stats.total_jobs_submitted + 1 } })

/-- `QuantumRuntime::create_job`, with the fresh job id of the process-wide
counter inside `Job::new` passed in explicitly. The backend string is the
circuit's `metadata.name` whenever that is `Some` — the
`unwrap_or(default_backend)` inside that branch can never fire — and the
configured `default_backend` only when the circuit is unnamed. -/
def QuantumRuntime.create_job (rt : QuantumRuntime) (freshId : Nat)
    (circuit : CircuitDag) (shots : Nat) (priority : Priority)
    (metadata : JobMetadata) : Nat × QuantumRuntime :=
  match circuit.metadata.name with
  | some n =>
      rt.submit_job (((Job.new freshId circuit shots n).with_priority
        priority).with_metadata metadata)
  | none =>
      rt.submit_job (((Job.new freshId circuit shots
        rt.config.default_backend).with_priority
        priority).with_metadata metadata)

/-- `QuantumRuntime::schedule_and_execute`. The `?` operators leave the
scheduler mutation of `schedule_next` in place when they bail out (a
registry miss silently loses the already-dequeued job). -/
def QuantumRuntime.schedule_and_execute (rt : QuantumRuntime) :
    Option JobResult × QuantumRuntime :=
  match rt.scheduler.schedule_next with
  | (none, sched1) => (none, { rt with scheduler := sched1 })
  | (some job, sched1) =>
      match rt.registry job.target_backend with
      | none => (none, { rt with scheduler := sched1 })
      | some backend =>
          match backend.execute job with
          | .ok result =>
              (some result,
                { rt with
                    scheduler := sched1.complete job.id result,
                    stats := { rt.stats with
                      total_jobs_completed :=
                        rt.stats.total_jobs_completed + 1,
                      total_execution_time_ms :=
                        rt.stats.total_execution_time_ms +
                          (result.execution_time_ms).getD 0 } })
          | .error e =>
              (some (JobResult.failure job.id e.message),
                { rt with
                    scheduler :=
                      sched1.complete job.id
                        (JobResult.failure job.id e.message),
                    stats := { rt.stats with
                      total_jobs_failed := rt.stats.total_jobs_failed + 1 } })

/-- `QuantumRuntime::get_job_result`. -/
def QuantumRuntime.get_job_result (rt : QuantumRuntime) (job_id : Nat) :
    Option JobResult :=
  rt.scheduler.get_result job_id

/-! ### C9: which backend `create_job` targets -/

/-- C9 (code bug): evaluating the code at the failing input. Under the
default configuration (`default_backend = "default"`), `create_job` on a
circuit named `"Bell State"` submits a job whose `target_backend` is the
circuit's NAME, not the configured default backend: the branch on
`metadata().name.is_some()` uses the name itself as the backend id, and
its `unwrap_or(default_backend)` is dead code. -/
theorem create_job_backend_divergence :
    ((((QuantumRuntime.new RuntimeConfig.mkDefault).create_job 1
        (CircuitDag.with_name "Bell State") 100 .Normal
        JobMetadata.new).2).scheduler.queue.jobs.map Job.target_backend
      = ["Bell State"]) ∧
    RuntimeConfig.mkDefault.default_backend = "default" := ⟨rfl, rfl⟩

/-! ### C10: the returned job never reaches `running` -/

/-- `schedule_next` changes neither `running` nor `completed`: in
particular it does NOT insert the job it returns into `running`. -/
theorem schedule_next_frame (s : JobScheduler) :
    ((s.schedule_next).2).running = s.running ∧
    ((s.schedule_next).2).completed = s.completed := by
  by_cases hrun : s.max_concurrent_jobs ≤ s.running.length
  · have hE : s.schedule_next = (none, s) := by
      unfold JobScheduler.schedule_next
      rw [if_pos hrun]
    rw [hE]
    exact ⟨rfl, rfl⟩
  · cases hcand : candidatesFrom s 0 s.queue.jobs with
    | nil =>
        have hE : s.schedule_next = (none, s) := by
          unfold JobScheduler.schedule_next
          rw [if_neg hrun, hcand]
        rw [hE]
        exact ⟨rfl, rfl⟩
    | cons c cs =>
        cases hget : s.queue.jobs.get? (maxByKeyLast (scheduleKey s) c cs) with
        | none =>
            have hE : s.schedule_next = (none, s) := by
              unfold JobScheduler.schedule_next
              rw [if_neg hrun]
              simp only [hcand, hget]
            rw [hE]
            exact ⟨rfl, rfl⟩
        | some job =>
            have hE : s.schedule_next =
                (some (job.set_status .Ready),
                  { s with
                      queue := ⟨s.queue.jobs.eraseIdx
                        (maxByKeyLast (scheduleKey s) c cs)⟩,
                      available_qubits :=
                        removeQubits (job.set_status .Ready).allocated_qubits
                          s.available_qubits,
                      stats := { s.stats with current_queue_depth :=
                        (s.queue.jobs.eraseIdx
                          (maxByKeyLast (scheduleKey s) c cs)).length } }) := by
              unfold JobScheduler.schedule_next
              rw [if_neg hrun]
              simp only [hcand, hget]
            rw [hE]
            exact ⟨rfl, rfl⟩

/-- `complete` on a job id absent from `running` is the identity. -/
theorem complete_not_running (s : JobScheduler) (job_id : Nat)
    (result : JobResult) (h : lookupRunning s.running job_id = none) :
    s.complete job_id result = s := by
  unfold JobScheduler.complete
  rw [h]

/-- C10: `schedule_next` never inserts the job it returns into `running`;
`complete` with a `job_id` absent from `running` leaves the scheduler
unchanged; consequently, along `QuantumRuntime::schedule_and_execute`
(which drives submit → schedule_next → execute → complete) no new result
is ever stored: any `job_id` whose `get_result` was `None` before the call
still yields `None` after it, including the very job just executed. -/
theorem schedule_and_execute_loses_result :
    (∀ (s : JobScheduler) (j : Job) (s1 : JobScheduler),
        s.schedule_next = (some j, s1) → s1.running = s.running) ∧
    (∀ (s : JobScheduler) (job_id : Nat) (result : JobResult),
        lookupRunning s.running job_id = none →
        s.complete job_id result = s) ∧
    (∀ (rt : QuantumRuntime) (res : Option JobResult)
        (rt1 : QuantumRuntime),
        rt.scheduler.running = [] →
        rt.schedule_and_execute = (res, rt1) →
        ∀ job_id, rt.scheduler.get_result job_id = none →
          rt1.scheduler.get_result job_id = none) := by
  refine ⟨?_, ?_, ?_⟩
  · intro s j s1 hE
    have h := (schedule_next_frame s).1
    rw [hE] at h
    exact h
  · intro s job_id result h
    exact complete_not_running s job_id result h
  · intro rt res rt1 hrun heq job_id hnone
    unfold JobScheduler.get_result at hnone ⊢
    cases hS : rt.scheduler.schedule_next with
    | mk o sched1 =>
    have hcomp : sched1.completed = rt.scheduler.completed := by
      have h := (schedule_next_frame rt.scheduler).2
      rw [hS] at h
      exact h
    have hre : sched1.running = [] := by
      have h := (schedule_next_frame rt.scheduler).1
      rw [hS] at h
      rw [h]
      exact hrun
    cases o with
    | none =>
        have hE : rt.schedule_and_execute =
            (none, { rt with scheduler := sched1 }) := by
          unfold QuantumRuntime.schedule_and_execute
          rw [hS]
        rw [hE] at heq
        have hrt1 : rt1 = { rt with scheduler := sched1 } :=
          (congrArg Prod.snd heq).symm
        rw [hrt1]
        show sched1.completed job_id = none
        rw [hcomp]
        exact hnone
    | some job =>
        cases hB : rt.registry job.target_backend with
        | none =>
            have hE : rt.schedule_and_execute =
                (none, { rt with scheduler := sched1 }) := by
              unfold QuantumRuntime.schedule_and_execute
              rw [hS]
              simp only [hB]
            rw [hE] at heq
            have hrt1 : rt1 = { rt with scheduler := sched1 } :=
              (congrArg Prod.snd heq).symm
            rw [hrt1]
            show sched1.completed job_id = none
            rw [hcomp]
            exact hnone
        | some backend =>
            have hlk : lookupRunning sched1.running job.id = none := by
              rw [hre]
              rfl
            cases hX : backend.execute job with
            | ok result =>
                have hE : rt.schedule_and_execute =
                    (some result,
                      { rt with
                          scheduler := sched1.complete job.id result,
                          stats := { rt.stats with
                            total_jobs_completed :=
                              rt.stats.total_jobs_completed + 1,
                            total_execution_time_ms :=
                              rt.stats.total_execution_time_ms +
                                (result.execution_time_ms).getD 0 } }) := by
                  unfold QuantumRuntime.schedule_and_execute
                  rw [hS]
                  simp only [hB, hX]
                rw [hE] at heq
                have hrt1 : rt1 = { rt with
                    scheduler := sched1.complete job.id result,
                    stats := { rt.stats with
                      total_jobs_completed :=
                        rt.stats.total_jobs_completed + 1,
                      total_execution_time_ms :=
                        rt.stats.total_execution_time_ms +
                          (result.execution_time_ms).getD 0 } } :=
                  (congrArg Prod.snd heq).symm
                rw [hrt1]
                show (sched1.complete job.id result).completed job_id = none
                rw [complete_not_running sched1 job.id result hlk, hcomp]
                exact hnone
            | error e =>
                have hE : rt.schedule_and_execute =
                    (some (JobResult.failure job.id e.message),
                      { rt with
                          scheduler :=
                            sched1.complete job.id
                              (JobResult.failure job.id e.message),
                          stats := { rt.stats with
                            total_jobs_failed :=
                              rt.stats.total_jobs_failed + 1 } }) := by
                  unfold QuantumRuntime.schedule_and_execute
                  rw [hS]
                  simp only [hB, hX]
                rw [hE] at heq
                have hrt1 : rt1 = { rt with
                    scheduler :=
                      sched1.complete job.id
                        (JobResult.failure job.id e.message),
                    stats := { rt.stats with
                      total_jobs_failed :=
                        rt.stats.total_jobs_failed + 1 } } :=
                  (congrArg Prod.snd heq).symm
                rw [hrt1]
                show (sched1.complete job.id
                  (JobResult.failure job.id e.message)).completed job_id = none
                rw [complete_not_running sched1 job.id _ hlk, hcomp]
                exact hnone

/-- A backend that executes every job successfully. -/
def wbackend : BackendAdapter :=
  ⟨fun job => .ok (JobResult.success job.id)⟩

/-- A runtime with the backend `"sim"` registered and one job (targeting
`"sim"`) submitted; its scheduler has an empty `running` map. -/
def wrt : QuantumRuntime :=
  (((QuantumRuntime.new RuntimeConfig.mkDefault).register_backend "sim"
      wbackend).submit_job (cjob 1)).2

/-- Witness: on `wsched`, `schedule_next` hands out a job yet leaves
`running` untouched; `complete` on an unknown id is the identity; and on
`wrt` — where the submitted job IS found, dispatched and executed —
`get_result` of the executed job still comes back `None`. -/
theorem schedule_and_execute_loses_result_witness :
    (((wsched.schedule_next).2).running = wsched.running) ∧
    ((JobScheduler.new 4).complete 5 (JobResult.failure 5 "x") =
      JobScheduler.new 4) ∧
    (((wrt.schedule_and_execute).2).scheduler.get_result 1 = none) :=
  ⟨schedule_and_execute_loses_result.1 wsched wjobReady
      ((wsched.schedule_next).2) rfl,
   schedule_and_execute_loses_result.2.1 (JobScheduler.new 4) 5
      (JobResult.failure 5 "x") rfl,
   schedule_and_execute_loses_result.2.2 wrt
      ((wrt.schedule_and_execute).1) ((wrt.schedule_and_execute).2)
      rfl rfl 1 rfl⟩


end QRuntime
